import Mathlib

/-!
# Verification of the tskills registry core

Shallow embedding of the registry's versioning engine, authorization policy,
membership invariant triggers, rate limiter, and error handling, translated
from the repository's SQL migrations and `src/lib/registry.ts` /
`src/lib/errors.ts`.

Strings are modelled as `List Char`; Postgres `TEXT` comparison is modelled
as code-point lexicographic order (C collation).  Timestamps are modelled as
whole epoch seconds (`Nat`).
-/

namespace Tskills

/-- Characters of a text value (Postgres `TEXT`, JS string). -/
abbrev Str := List Char

/-- Generic boolean lexicographic strict order on lists, given a strict order
on elements: this is how Postgres compares arrays element by element, a
shorter array that is a prefix of a longer one sorting first. -/
def lexLtB {α : Type} [DecidableEq α] (lt : α → α → Bool) : List α → List α → Bool
  | [], [] => false
  | [], _ :: _ => true
  | _ :: _, [] => false
  | a :: as, b :: bs => if lt a b then true else if a = b then lexLtB lt as bs else false

/-- Strict order on characters (code points, i.e. C collation for ASCII). -/
def charLtB (a b : Char) : Bool := decide (a < b)

/-- Postgres `TEXT` comparison under C collation. -/
def strLtB : Str → Str → Bool := lexLtB charLtB

/-- Postgres `TEXT[]` array comparison: element-wise text comparison,
missing elements sorting first. -/
def keyLtB : List Str → List Str → Bool := lexLtB strLtB

/-- Postgres `lpad(s, 10, '0')`: pads on the left with `'0'` up to 10
characters, truncating on the right when the input is longer. -/
def lpad10 (s : Str) : Str :=
  if 10 ≤ s.length then s.take 10 else List.replicate (10 - s.length) '0' ++ s

/-- Postgres `string_to_array(s, '.')`: splits on `'.'`. -/
def splitDot : Str → List Str
  | [] => [[]]
  | c :: cs =>
    if c = '.' then [] :: splitDot cs
    else
      match splitDot cs with
      | r :: rs => (c :: r) :: rs
      | [] => [[c]]

/-- The plpgsql test `v_ident ~ '^\d+$'`: a non-empty all-digit identifier. -/
def isNumericIdent (s : Str) : Bool := !s.isEmpty && s.all (fun c => c.isDigit)

/-- `public.semver_sort_key` from the semver-fix migration: builds a `TEXT[]`
sort key for a version string.  Strips build metadata after `'+'`, splits the
pre-release suffix after the first `'-'`, zero-pads the three core fields, then
appends a release marker `'1'` or a pre-release marker `'0'` followed by one
encoded element per dot-separated pre-release identifier (`'0' || lpad`
for numeric identifiers, `'1' || ident` for alphanumeric ones). -/
def semver_sort_key (p : Str) : List Str :=
  let vcore0 := p.takeWhile (fun c => c ≠ '+')
  let hasDash := vcore0.any (fun c => c = '-')
  let core := if hasDash then vcore0.takeWhile (fun c => c ≠ '-') else vcore0
  let parts := splitDot core
  let base := [lpad10 (parts.getD 0 ['0']), lpad10 (parts.getD 1 ['0']),
               lpad10 (parts.getD 2 ['0'])]
  if hasDash then
    let pre := (vcore0.dropWhile (fun c => c ≠ '-')).drop 1
    base ++ [['0']] ++ (splitDot pre).map
      (fun id => if isNumericIdent id then '0' :: lpad10 id else '1' :: id)
  else
    base ++ [['1']]

/-! ## Decimal rendering of numbers

Fuel-bounded decimal digits, exact for any number below `10 ^ 20` (every
number appearing in this development is far smaller). -/

/-- Decimal digits of `n` (most significant first), with fuel. -/
def natDigitsAux : Nat → Nat → List Nat
  | 0, _ => []
  | fuel + 1, n => if n < 10 then [n] else natDigitsAux fuel (n / 10) ++ [n % 10]

/-- Decimal digits of `n`, most significant first; exact for `n < 10 ^ 20`. -/
def natDigits (n : Nat) : List Nat := natDigitsAux 20 n

/-- The character for a decimal digit. -/
def digitChar : Nat → Char
  | 0 => '0' | 1 => '1' | 2 => '2' | 3 => '3' | 4 => '4'
  | 5 => '5' | 6 => '6' | 7 => '7' | 8 => '8' | _ => '9'

/-- Canonical decimal rendering of a number. -/
def natStr (n : Nat) : Str := (natDigits n).map digitChar

/-! ## Structured semantic versions (the spec's view, §4.3) -/

/-- A dot-separated pre-release identifier: purely numeric, or alphanumeric. -/
inductive PreId where
  | num : Nat → PreId
  | alnum : Str → PreId
deriving DecidableEq

/-- A semantic version: three numeric core fields and a (possibly empty)
pre-release identifier list.  Build metadata is supplied separately when
rendering, since precedence ignores it. -/
structure Semver where
  major : Nat
  minor : Nat
  patch : Nat
  pre : List PreId
deriving DecidableEq

/-- Rendering of one pre-release identifier. -/
def renderPreId : PreId → Str
  | .num n => natStr n
  | .alnum s => s

/-- Join character lists with `'.'`. -/
def joinDots : List Str → Str
  | [] => []
  | [x] => x
  | x :: xs => x ++ '.' :: joinDots xs

/-- The canonical version string of a structured version, with optional
build metadata after `'+'`. -/
def render (v : Semver) (build : Option Str) : Str :=
  natStr v.major ++ '.' :: natStr v.minor ++ '.' :: natStr v.patch
    ++ (match v.pre with
        | [] => []
        | ps => '-' :: joinDots (ps.map renderPreId))
    ++ (match build with
        | none => []
        | some b => '+' :: b)

/-- Spec §4.3 step 4: numeric identifiers compare numerically and rank below
any alphanumeric identifier; alphanumeric identifiers compare lexically. -/
def identLtB : PreId → PreId → Bool
  | .num a, .num b => decide (a < b)
  | .num _, .alnum _ => true
  | .alnum _, .num _ => false
  | .alnum a, .alnum b => strLtB a b

/-- Spec §4.3: pre-release identifier lists compare left to right, a strict
prefix ranking below the longer list. -/
def preListLtB : List PreId → List PreId → Bool := lexLtB identLtB

/-- Spec §4.3 step 3 and 4 combined, for the pre-release part: with equal
cores, a version with a pre-release suffix ranks below one without; two
suffixes compare identifier by identifier. -/
def prePartLtB : List PreId → List PreId → Bool
  | [], _ => false
  | _ :: _, [] => true
  | as, bs => preListLtB as bs

/-- The semver precedence order exactly as the spec states it (§4.3):
numeric core fields compare numerically; with equal cores a version with a
pre-release suffix ranks below one without; pre-release suffixes compare
identifier by identifier. -/
def specSemverLt (a b : Semver) : Bool :=
  if a.major ≠ b.major then decide (a.major < b.major)
  else if a.minor ≠ b.minor then decide (a.minor < b.minor)
  else if a.patch ≠ b.patch then decide (a.patch < b.patch)
  else prePartLtB a.pre b.pre

/-- Characters allowed in semver identifiers: `[0-9A-Za-z-]`. -/
def identCharOK (c : Char) : Bool := c.isDigit || c.isAlpha || c = '-'

/-- Well-formed pre-release identifier.  Numeric identifiers are bounded by
`10 ^ 10` because the sort key zero-pads to width 10 (Postgres `lpad`
truncates anything longer). -/
def wfIdent : PreId → Prop
  | .num n => n < 10 ^ 10
  | .alnum s => s ≠ [] ∧ (∀ c ∈ s, identCharOK c = true) ∧ ∃ c ∈ s, c.isDigit = false

instance : DecidablePred wfIdent := fun i => by
  unfold wfIdent; cases i <;> infer_instance

/-- Well-formed structured version: all numeric fields below the 10-digit
pad width, all identifiers well-formed. -/
def wfSemver (v : Semver) : Prop :=
  v.major < 10 ^ 10 ∧ v.minor < 10 ^ 10 ∧ v.patch < 10 ^ 10 ∧ ∀ i ∈ v.pre, wfIdent i

instance (v : Semver) : Decidable (wfSemver v) := by
  unfold wfSemver; infer_instance

/-- The value of a digit list, most significant first. -/
def digitsVal (l : List Nat) : Nat := l.foldl (fun a d => 10 * a + d) 0

/-- The 10-digit zero-padded form of a number, as digits. -/
def padDigits (x : Nat) : List Nat :=
  List.replicate (10 - (natDigits x).length) 0 ++ natDigits x

/-- The sort-key encoding of one pre-release identifier. -/
def encIdent : PreId → Str
  | .num n => '0' :: lpad10 (natStr n)
  | .alnum s => '1' :: s

/-- The tail of the sort key: the release marker `'1'`, or the pre-release
marker `'0'` followed by the encoded identifiers. -/
def keyTail : List PreId → List Str
  | [] => [['1']]
  | ps => ['0'] :: ps.map encIdent

/-- The sort key of a structured version: the three padded core fields, then
the marker and encoded identifiers. -/
def keyOf (v : Semver) : List Str :=
  [lpad10 (natStr v.major), lpad10 (natStr v.minor), lpad10 (natStr v.patch)]
    ++ keyTail v.pre

/-- The `major.minor.patch` core of the canonical string. -/
def coreStr (v : Semver) : Str :=
  natStr v.major ++ '.' :: natStr v.minor ++ '.' :: natStr v.patch

/-- The joined pre-release identifiers. -/
def preJoin (ps : List PreId) : Str := joinDots (ps.map renderPreId)

/-- The pre-release chunk of the canonical string. -/
def preSuf : List PreId → Str
  | [] => []
  | ps => '-' :: preJoin ps

/-- The build-metadata chunk of the canonical string. -/
def buildSuf : Option Str → Str
  | none => []
  | some b => '+' :: b

/-! ## Versioning-engine state: `skill_versions` rows and the
`update_skill_latest_version` trigger (semver-fix migration) -/

/-- A row of `skill_versions` for one skill: version string and immutable
content blob. -/
structure VersionRow where
  version : Str
  content : Str
deriving DecidableEq

/-- The versioning-relevant state of one skill: its version rows and the
denormalized `latest_version` column. -/
structure SkillState where
  versions : List VersionRow
  latest_version : Option Str
deriving DecidableEq

/-- A freshly created skill: no versions, `latest_version` null. -/
def initSkill : SkillState := ⟨[], none⟩

/-- The subselect of `update_skill_latest_version`: `SELECT version FROM
skill_versions WHERE skill_id = … ORDER BY semver_sort_key(version) DESC
LIMIT 1` — a row of maximal sort key (ties broken arbitrarily by the
database; this model keeps the row found first), or NULL when no row. -/
def latestOf : List VersionRow → Option Str
  | [] => none
  | r :: rs =>
    match latestOf rs with
    | none => some r.version
    | some w =>
      if keyLtB (semver_sort_key w) (semver_sort_key r.version) then some r.version
      else some w

/-- `INSERT INTO skill_versions` followed by the `AFTER INSERT` trigger: the
unique `(skill_id, version)` constraint rejects a duplicate version string
(the insert fails, nothing changes), otherwise the row is stored and the
trigger recomputes `latest_version` from all rows. -/
def insertVersion (st : SkillState) (v c : Str) : Except Unit SkillState :=
  if st.versions.any (fun r => r.version = v) then .error ()
  else
    let rows := ⟨v, c⟩ :: st.versions
    .ok ⟨rows, latestOf rows⟩

/-- `DELETE FROM skill_versions WHERE version = …` followed by the
`AFTER DELETE` trigger added in the semver-fix migration; when no row
matches, nothing fires and the state is unchanged. -/
def deleteVersion (st : SkillState) (v : Str) : SkillState :=
  if st.versions.any (fun r => r.version = v) then
    let rows := st.versions.filter (fun r => ¬ r.version = v)
    ⟨rows, latestOf rows⟩
  else st

/-- One version-level operation on a skill, named by a structured version
(with optional build metadata, rendered into the stored string). -/
inductive VOp where
  | ins (v : Semver) (build : Option Str) (content : Str)
  | del (v : Semver) (build : Option Str)

/-- The structured version an operation names. -/
def VOp.semver : VOp → Semver
  | .ins v _ _ => v
  | .del v _ => v

/-- Apply one operation; a rejected insert leaves the store unchanged. -/
def applyVOp (st : SkillState) (op : VOp) : SkillState :=
  match op with
  | .ins v b c =>
    match insertVersion st (render v b) c with
    | .ok st' => st'
    | .error _ => st
  | .del v b => deleteVersion st (render v b)

/-- Run a sequence of version operations from a fresh skill. -/
def execVOps (ops : List VOp) : SkillState := ops.foldl applyVOp initSkill

/-- The trigger-maintained consistency: `latest_version` always holds the
recomputed maximum. -/
def skillInv (st : SkillState) : Prop := st.latest_version = latestOf st.versions

/-- Every stored version string is the canonical rendering of a well-formed
structured version. -/
def rowsWf (st : SkillState) : Prop :=
  ∀ r ∈ st.versions, ∃ v b, wfSemver v ∧ r.version = render v b

/-! ## Error taxonomy (`src/lib/errors.ts`)

The module defines `TskillsError` and subclasses `NetworkError`, `AuthError`,
`ValidationError`, `RateLimitError`, `NotFoundError`, `PermissionError`,
`FileSystemError`, `ConfigError`; each sets `this.name` to its class name.
`registry.ts` additionally throws plain JavaScript `Error`s (`generic`
below, whose `name` is `"Error"`).  The taxonomy defines neither a
`ConflictError` nor an `InvariantError`. -/

inductive ErrName where
  | tskillsError
  | networkError
  | authError
  | validationError
  | rateLimitError
  | notFoundError
  | permissionError
  | fileSystemError
  | configError
  | generic
deriving DecidableEq, Fintype

/-- The `name` property of a thrown error. -/
def errNameStr : ErrName → Str
  | .tskillsError => "TskillsError".data
  | .networkError => "NetworkError".data
  | .authError => "AuthError".data
  | .validationError => "ValidationError".data
  | .rateLimitError => "RateLimitError".data
  | .notFoundError => "NotFoundError".data
  | .permissionError => "PermissionError".data
  | .fileSystemError => "FileSystemError".data
  | .configError => "ConfigError".data
  | .generic => "Error".data

/-- A thrown error: its class and message. -/
structure Err where
  name : ErrName
  msg : Str
deriving DecidableEq

/-! ## Identity, membership, and the skills RLS visibility policy
(migrations 00002/00003) -/

abbrev UserId := Nat
abbrev OrgId := Nat
abbrev TeamId := Nat

inductive Role where
  | owner
  | admin
  | member
deriving DecidableEq, Fintype

/-- A row of `org_members`: primary key `(org_id, user_id)` plus role. -/
structure OrgMem where
  org : OrgId
  user : UserId
  role : Role
deriving DecidableEq

/-- A row of `team_members`: primary key `(team_id, user_id)`. -/
structure TeamMem where
  team : TeamId
  user : UserId
deriving DecidableEq

/-- Membership rows consulted by the policy helper functions. -/
structure Directory where
  org_members : List OrgMem
  team_members : List TeamMem
deriving DecidableEq

/-- SQL `=` against `auth.uid()`: comparison with NULL on either side yields
NULL, which a policy treats as not-true. -/
def sqlEqU : Option UserId → Option UserId → Bool
  | some a, some b => decide (a = b)
  | _, _ => false

/-- `public.is_org_member(p_org_id, p_user_id)`. -/
def is_org_member (d : Directory) (o : OrgId) (u : Option UserId) : Bool :=
  match u with
  | none => false
  | some uid => d.org_members.any fun m => decide (m.org = o) && decide (m.user = uid)

/-- `public.is_team_member(p_team_id, p_user_id)`. -/
def is_team_member (d : Directory) (t : TeamId) (u : Option UserId) : Bool :=
  match u with
  | none => false
  | some uid => d.team_members.any fun m => decide (m.team = t) && decide (m.user = uid)

inductive Visibility where
  | publicV
  | privateV
  | orgV
  | teamV
deriving DecidableEq, Fintype

/-- The policy-relevant columns of a `skills` row. -/
structure Skill where
  owner_id : Option UserId
  owner_org_id : Option OrgId
  team_id : Option TeamId
  visibility : Visibility
deriving DecidableEq

/-- The `Skills visibility policy` USING clause (migration 00003), evaluated
for principal `auth.uid() = u` (`none` = anonymous): public to everyone,
private only to the owner, own skills always, org skills to org members,
team skills to team members. -/
def canView (d : Directory) (u : Option UserId) (s : Skill) : Bool :=
  decide (s.visibility = .publicV)
  || (decide (s.visibility = .privateV) && sqlEqU s.owner_id u)
  || sqlEqU s.owner_id u
  || (decide (s.visibility = .orgV)
      && (match s.owner_org_id with
          | some o => is_org_member d o u
          | none => false))
  || (decide (s.visibility = .teamV)
      && (match s.team_id with
          | some t => is_team_member d t u
          | none => false))

/-! ## Team deletion and the `fix_team_skill_visibility` trigger -/

/-- The `fix_team_skill_visibility` BEFORE UPDATE trigger function: when the
incoming row has no team reference but still `team` visibility, rewrite the
visibility to `org` before the row is written. -/
def fix_team_skill_visibility (s : Skill) : Skill :=
  if s.team_id = none ∧ s.visibility = .teamV then { s with visibility := .orgV } else s

/-- The per-row effect of deleting team `t` on a skill: the foreign key
`ON DELETE SET NULL` clears `team_id`, and the trigger (`WHEN OLD.team_id IS
NOT NULL AND NEW.team_id IS NULL`) fixes the row before it is stored; skills
not referencing `t` are untouched. -/
def onTeamDelete (t : TeamId) (s : Skill) : Skill :=
  if s.team_id = some t then fix_team_skill_visibility { s with team_id := none } else s

/-- Deleting a team rewrites each referencing skill row; no row is removed. -/
def deleteTeamSkills (t : TeamId) (skills : List Skill) : List Skill :=
  skills.map (onTeamDelete t)

/-- The `skills` CHECK constraints (migration 00002): exactly one owner kind,
`team` visibility requires a team reference, `private` visibility requires a
personal owner. -/
def skillChecksOK (s : Skill) : Bool :=
  ((decide (s.owner_id ≠ none) && decide (s.owner_org_id = none))
    || (decide (s.owner_id = none) && decide (s.owner_org_id ≠ none)))
  && (decide (s.visibility ≠ .teamV) || decide (s.team_id ≠ none))
  && (decide (s.visibility ≠ .privateV) || decide (s.owner_org_id = none))

/-! ## Organizations: registry rows, last-owner triggers, atomic creation
(migrations 00011, 00015 and `registry.ts`) -/

/-- The organization-related store rows used by the registry functions. -/
structure RegistryDb where
  orgs : List (OrgId × Str)
  users : List (UserId × Str)
  org_members : List OrgMem
deriving DecidableEq

/-- `EXISTS (SELECT 1 FROM org_members WHERE org_id = o AND role = 'owner'
AND user_id != u)` — the check of both last-owner triggers. -/
def otherOwnerExists (members : List OrgMem) (o : OrgId) (u : UserId) : Bool :=
  members.any fun m =>
    decide (m.org = o) && decide (m.role = Role.owner) && decide (m.user ≠ u)

/-- `DELETE FROM org_members WHERE org_id = o AND user_id = u`, guarded by
the `prevent_last_owner_delete` BEFORE DELETE trigger (fires when the row
has role `owner`; raises when no other owner remains). -/
def dbDeleteMember (members : List OrgMem) (o : OrgId) (u : UserId) :
    Except Err (List OrgMem) :=
  match members.find? (fun m => decide (m.org = o) && decide (m.user = u)) with
  | none => .ok members
  | some row =>
    if decide (row.role = Role.owner) && !otherOwnerExists members o u then
      .error ⟨.generic, "Cannot remove the last owner of an organization".data⟩
    else .ok (members.filter fun m => !(decide (m.org = o) && decide (m.user = u)))

/-- `UPDATE org_members SET role = newRole WHERE org_id = o AND user_id = u`,
guarded by the `prevent_last_owner_update` BEFORE UPDATE trigger (fires when
the old row has role `owner`; raises on demotion when no other owner
remains). -/
def dbUpdateMemberRole (members : List OrgMem) (o : OrgId) (u : UserId)
    (newRole : Role) : Except Err (List OrgMem) :=
  match members.find? (fun m => decide (m.org = o) && decide (m.user = u)) with
  | none => .ok members
  | some row =>
    if decide (row.role = Role.owner) && decide (newRole ≠ Role.owner)
        && !otherOwnerExists members o u then
      .error ⟨.generic, "Cannot demote the last owner of an organization".data⟩
    else
      .ok (members.map fun m =>
        if m.org = o ∧ m.user = u then { m with role := newRole } else m)

/-- `removeOrgMember` from `registry.ts`: resolve the org by slug and the
user by username (plain `Error` when missing), refuse to remove the last
owner with a plain `Error`, then delete the membership row (the DB trigger
still guards the delete; a DB failure is rethrown as a plain `Error`). -/
def removeOrgMember (db : RegistryDb) (slug username : Str) :
    Except Err RegistryDb :=
  match db.orgs.find? (fun x => decide (x.2 = slug)) with
  | none => .error ⟨.generic, "Organization not found".data⟩
  | some org =>
    match db.users.find? (fun x => decide (x.2 = username)) with
    | none => .error ⟨.generic, "User not found".data⟩
    | some target =>
      let owners := db.org_members.filter fun m =>
        decide (m.org = org.1) && decide (m.role = Role.owner)
      let isLastOwner := decide (owners.length = 1)
        && (match owners.head? with
            | some m => decide (m.user = target.1)
            | none => false)
      if isLastOwner then
        .error ⟨.generic, "Cannot remove the last owner. Transfer ownership first.".data⟩
      else
        match dbDeleteMember db.org_members org.1 target.1 with
        | .error e => .error ⟨.generic, "Failed to remove member: ".data ++ e.msg⟩
        | .ok members' => .ok { db with org_members := members' }

/-- `public.create_org_with_owner` (migration 00011): inside one transaction,
insert the organization (unique slug) then the creator's `owner` membership;
`memberInsertFails` injects a failure between the two writes, which aborts
the whole function so neither row persists. -/
def create_org_with_owner (db : RegistryDb) (creator : UserId) (newOrgId : OrgId)
    (slug : Str) (memberInsertFails : Bool) : Except Err RegistryDb :=
  if db.orgs.any (fun x => decide (x.2 = slug)) then
    .error ⟨.generic, "duplicate key value violates unique constraint".data⟩
  else if memberInsertFails then
    .error ⟨.generic, "could not insert owner membership".data⟩
  else
    .ok { db with
          orgs := (newOrgId, slug) :: db.orgs,
          org_members := ⟨newOrgId, creator, .owner⟩ :: db.org_members }

/-- The store visible after the call: the new state on success, the original
state on error (the function body is a single transaction). -/
def persistedAfterCreate (db : RegistryDb) (creator : UserId) (newOrgId : OrgId)
    (slug : Str) (memberInsertFails : Bool) : RegistryDb :=
  match create_org_with_owner db creator newOrgId slug memberInsertFails with
  | .ok db' => db'
  | .error _ => db

/-- An organization id with at least one `owner` membership. -/
def orgHasOwner (db : RegistryDb) (o : OrgId) : Prop :=
  ∃ m ∈ db.org_members, m.org = o ∧ m.role = Role.owner

/-- The cascade part of deleting an organization: `ON DELETE CASCADE` removes
the org's membership rows one by one (in `order`), and the BEFORE DELETE
last-owner trigger fires for each `owner` row against the current state; a
raise aborts the whole statement. -/
def cascadeDelete (o : OrgId) : List OrgMem → List OrgMem → Except Err (List OrgMem)
  | members, [] => .ok members
  | members, r :: rest =>
    if decide (r.role = Role.owner) && !otherOwnerExists members o r.user then
      .error ⟨.generic, "Cannot remove the last owner of an organization".data⟩
    else cascadeDelete o (members.erase r) rest

/-- `deleteOrg` from `registry.ts`: resolve the org by slug, then
`DELETE FROM organizations WHERE id = …`; the delete cascades into
`org_members` (in some row order `order`), and any trigger raise rolls the
whole deletion back and is rethrown as a plain `Error`. -/
def deleteOrg (db : RegistryDb) (slug : Str) (order : List OrgMem) :
    Except Err RegistryDb :=
  match db.orgs.find? (fun x => decide (x.2 = slug)) with
  | none => .error ⟨.generic, "Organization not found".data⟩
  | some org =>
    match cascadeDelete org.1 db.org_members order with
    | .error e => .error ⟨.generic, "Failed to delete organization: ".data ++ e.msg⟩
    | .ok members' =>
      .ok { db with
            orgs := db.orgs.filter (fun x => !decide (x.1 = org.1)),
            org_members := members' }

/-! ## Rate limiter (`check_rate_limit`, dynamic-window revision) -/

/-- A `rate_limit_config` row. -/
structure RLConfig where
  window_seconds : Nat
  anonymous_limit : Nat
  authenticated_limit : Nat
deriving DecidableEq

/-- A `rate_limits` counter row. -/
structure RLEntry where
  identifier : Str
  action : Str
  window_start : Nat
  request_count : Nat
  created_at : Nat
deriving DecidableEq

/-- The rate limiter's store: per-action config and counter rows. -/
structure RLState where
  configs : List (Str × RLConfig)
  entries : List RLEntry
deriving DecidableEq

/-- The JSONB result of `check_rate_limit`. -/
structure RLResult where
  allowed : Bool
  limit : Option Nat
  remaining : Option Nat
  reset_at : Option Nat
  retry_after : Option Nat
deriving DecidableEq

/-- `public.check_rate_limit(p_identifier, p_action, p_is_authenticated)`
(final, dynamic-window revision), with time in whole epoch seconds:
probabilistic cleanup (`doCleanup` models `random() < 0.01`) deletes rows
older than two hours; a missing config allows unconditionally; limit 0
denies with a fixed hint; otherwise the counter for
`(identifier, action, floor(now/window)*window)` is upserted and the
post-increment count checked against the limit, reporting
`retry_after = reset_at - now` on denial. -/
def check_rate_limit (st : RLState) (now : Nat) (doCleanup : Bool)
    (ident action : Str) (isAuth : Bool) : RLResult × RLState :=
  let entries :=
    if doCleanup then st.entries.filter (fun e => !decide (e.created_at + 7200 < now))
    else st.entries
  match st.configs.find? (fun c => decide (c.1 = action)) with
  | none => (⟨true, none, none, none, none⟩, { st with entries := entries })
  | some cfgRow =>
    let cfg := cfgRow.2
    let limit := if isAuth then cfg.authenticated_limit else cfg.anonymous_limit
    if limit = 0 then
      (⟨false, some 0, some 0, some (now + 3600), some 3600⟩, { st with entries := entries })
    else
      let ws := now / cfg.window_seconds * cfg.window_seconds
      let resetAt := ws + cfg.window_seconds
      let found := entries.find? fun e =>
        decide (e.identifier = ident) && decide (e.action = action)
          && decide (e.window_start = ws)
      let cnt := match found with
        | some e => e.request_count + 1
        | none => 1
      let entries' := match found with
        | some _ => entries.map fun e =>
            if e.identifier = ident ∧ e.action = action ∧ e.window_start = ws then
              { e with request_count := e.request_count + 1 }
            else e
        | none => ⟨ident, action, ws, 1, now⟩ :: entries
      if limit < cnt then
        (⟨false, some limit, some 0, some resetAt, some (resetAt - now)⟩,
          { st with entries := entries' })
      else
        (⟨true, some limit, some (limit - cnt), some resetAt, none⟩,
          { st with entries := entries' })

/-- The store state after a sequence of anonymous checks at given
`(time, cleanup-roll)` points. -/
def runChecksState (ident action : Str) (st : RLState) (ts : List (Nat × Bool)) :
    RLState :=
  ts.foldl (fun s p => (check_rate_limit s p.1 p.2 ident action false).2) st

/-- A canonical limiter state inside window `n` (for window length 3600 and
anonymous limit 60): the config row for one action, and — when `k ≥ 1` — a
single counter row for the identifier with count `k`, created at `c`. -/
def rlStateAt (action ident : Str) (aL n k c : Nat) : RLState :=
  ⟨[(action, ⟨3600, 60, aL⟩)],
    if k = 0 then [] else [⟨ident, action, n * 3600, k, c⟩]⟩

/-! ## `publishVersion` error paths and the rate-limit wrapper
(`registry.ts`) -/

/-- The version-insert step of `publishVersion`: a store failure is rethrown
as a plain `Error`; a unique-constraint violation (Postgres 23505) becomes a
plain `Error` saying the version already exists; otherwise the insert and
its trigger run. -/
def publishVersionInsert (st : SkillState) (v c : Str) (storeFail : Option Str) :
    Except Err SkillState :=
  match storeFail with
  | some m => .error ⟨.generic, "Failed to publish version: ".data ++ m⟩
  | none =>
    match insertVersion st v c with
    | .ok st' => .ok st'
    | .error _ => .error ⟨.generic, "Version ".data ++ v ++ " already exists".data⟩

/-- The store visible after a `publishVersion` insert attempt. -/
def persistedAfterPublish (st : SkillState) (v c : Str) (storeFail : Option Str) :
    SkillState :=
  match publishVersionInsert st v c storeFail with
  | .ok st' => st'
  | .error _ => st

/-- `checkRateLimit` from `registry.ts`: the `check_rate_limit` RPC result is
either a store error or a parsed result.  On a store error the function logs
a warning and returns normally — the error is swallowed and the caller
proceeds; on a denial it throws `RateLimitError`. -/
def checkRateLimitTS (rpc : Except Str RLResult) : Except Err Unit :=
  match rpc with
  | .error _ => .ok ()
  | .ok r =>
    if r.allowed then .ok ()
    else .error ⟨.rateLimitError, "Rate limit exceeded. Please try again later.".data⟩

/-- `withRateLimit` from `registry.ts`: run the rate-limit check, then the
operation. -/
def withRateLimitTS {α : Type} (rpc : Except Str RLResult) (op : Except Err α) :
    Except Err α :=
  match checkRateLimitTS rpc with
  | .ok _ => op
  | .error e => .error e

/-! ## Decimal digit lemmas -/

theorem foldl_digits_shift (l : List Nat) (a : Nat) :
    l.foldl (fun a d => 10 * a + d) a = a * 10 ^ l.length + digitsVal l := by
  induction l generalizing a with
  | nil => simp [digitsVal]
  | cons d l ih =>
    unfold digitsVal
    simp only [List.foldl_cons, List.length_cons, Nat.mul_zero, Nat.zero_add]
    rw [ih (10 * a + d), ih d]
    ring

theorem digitsVal_cons (d : Nat) (l : List Nat) :
    digitsVal (d :: l) = d * 10 ^ l.length + digitsVal l := by
  simpa [digitsVal] using foldl_digits_shift l d

theorem digitsVal_append_single (l : List Nat) (d : Nat) :
    digitsVal (l ++ [d]) = 10 * digitsVal l + d := by
  simp only [digitsVal, List.foldl_append, List.foldl_cons, List.foldl_nil]

theorem digitsVal_replicate_zero (k : Nat) (l : List Nat) :
    digitsVal (List.replicate k 0 ++ l) = digitsVal l := by
  induction k with
  | zero => simp
  | succ k ih => simpa [List.replicate_succ, digitsVal] using ih

theorem digitsVal_lt (l : List Nat) (h : ∀ d ∈ l, d < 10) :
    digitsVal l < 10 ^ l.length := by
  induction l with
  | nil => simp [digitsVal]
  | cons d l ih =>
    rw [digitsVal_cons]
    have hd : d < 10 := h d (List.mem_cons_self _ _)
    have hl : digitsVal l < 10 ^ l.length := ih fun x hx => h x (List.mem_cons_of_mem _ hx)
    calc d * 10 ^ l.length + digitsVal l < d * 10 ^ l.length + 10 ^ l.length := by omega
    _ = (d + 1) * 10 ^ l.length := by ring
    _ ≤ 10 * 10 ^ l.length := Nat.mul_le_mul_right _ (by omega)
    _ = 10 ^ (l.length + 1) := by ring
    _ = 10 ^ (d :: l).length := by simp

theorem natDigitsAux_mem_lt (fuel n : Nat) : ∀ d ∈ natDigitsAux fuel n, d < 10 := by
  induction fuel generalizing n with
  | zero => simp [natDigitsAux]
  | succ fuel ih =>
    intro d hd
    unfold natDigitsAux at hd
    by_cases h : n < 10
    · simp [h] at hd; omega
    · simp [h, List.mem_append] at hd
      rcases hd with hd | hd
      · exact ih _ d hd
      · omega

theorem natDigitsAux_val (fuel n : Nat) (h : n < 10 ^ fuel) :
    digitsVal (natDigitsAux fuel n) = n := by
  induction fuel generalizing n with
  | zero => simp at h; simp [natDigitsAux, digitsVal, h]
  | succ fuel ih =>
    unfold natDigitsAux
    by_cases h10 : n < 10
    · simp [h10, digitsVal]
    · have hdiv : n / 10 < 10 ^ fuel := by
        rw [Nat.div_lt_iff_lt_mul (by omega)]
        calc n < 10 ^ (fuel + 1) := h
        _ = 10 ^ fuel * 10 := by ring
      simp only [h10, if_false]
      rw [digitsVal_append_single, ih _ hdiv]
      omega

theorem natDigitsAux_ne_nil (fuel n : Nat) (h : 0 < fuel) :
    natDigitsAux fuel n ≠ [] := by
  cases fuel with
  | zero => omega
  | succ fuel =>
    unfold natDigitsAux
    by_cases h10 : n < 10
    · simp [h10]
    · simp [h10]

theorem natDigitsAux_length_le (fuel k n : Nat) (hn : n < 10 ^ k) (hk : 1 ≤ k) :
    (natDigitsAux fuel n).length ≤ k := by
  induction fuel generalizing k n with
  | zero => simp [natDigitsAux]
  | succ fuel ih =>
    unfold natDigitsAux
    by_cases h10 : n < 10
    · simpa [h10] using hk
    · have hk2 : 2 ≤ k := by
        rcases Nat.lt_or_ge k 2 with hk' | hk'
        · interval_cases k <;> omega
        · exact hk'
      have hdiv : n / 10 < 10 ^ (k - 1) := by
        rw [Nat.div_lt_iff_lt_mul (by omega)]
        calc n < 10 ^ k := hn
        _ = 10 ^ (k - 1) * 10 := by
              rw [← Nat.pow_succ]
              congr 1
              omega
      have := ih (k - 1) (n / 10) hdiv (by omega)
      simp only [h10, if_false, List.length_append, List.length_cons, List.length_nil]
      omega

theorem natDigits_mem_lt (n : Nat) : ∀ d ∈ natDigits n, d < 10 :=
  natDigitsAux_mem_lt 20 n

theorem natDigits_val (n : Nat) (h : n < 10 ^ 20) : digitsVal (natDigits n) = n :=
  natDigitsAux_val 20 n h

theorem natDigits_ne_nil (n : Nat) : natDigits n ≠ [] :=
  natDigitsAux_ne_nil 20 n (by omega)

theorem natDigits_length_le_ten (n : Nat) (h : n < 10 ^ 10) :
    (natDigits n).length ≤ 10 :=
  natDigitsAux_length_le 20 10 n h (by omega)

/-! ## Digit characters -/

theorem digitChar_toNat (d : Nat) (h : d < 10) : (digitChar d).toNat = 48 + d := by
  interval_cases d <;> rfl

theorem digitChar_isDigit (d : Nat) (h : d < 10) : (digitChar d).isDigit = true := by
  interval_cases d <;> rfl

theorem digitChar_inj (d e : Nat) (hd : d < 10) (he : e < 10)
    (h : digitChar d = digitChar e) : d = e := by
  have := congrArg Char.toNat h
  rw [digitChar_toNat d hd, digitChar_toNat e he] at this
  omega

theorem charLtB_digitChar (d e : Nat) (hd : d < 10) (he : e < 10) :
    charLtB (digitChar d) (digitChar e) = decide (d < e) := by
  interval_cases d <;> interval_cases e <;> decide

/-! ## Zero-padded decimal comparison -/

theorem lexLtB_cons {α : Type} [DecidableEq α] (lt : α → α → Bool) (a b : α)
    (as bs : List α) :
    lexLtB lt (a :: as) (b :: bs)
      = if lt a b then true else if a = b then lexLtB lt as bs else false := rfl

theorem strLtB_digits (ds : List Nat) : ∀ es : List Nat, ds.length = es.length →
    (∀ d ∈ ds, d < 10) → (∀ e ∈ es, e < 10) →
    strLtB (ds.map digitChar) (es.map digitChar) = decide (digitsVal ds < digitsVal es) := by
  induction ds with
  | nil =>
    intro es hlen _ _
    have : es = [] := List.length_eq_zero.mp hlen.symm
    subst this
    simp [strLtB, lexLtB, digitsVal]
  | cons d ds ih =>
    intro es hlen hds hes
    cases es with
    | nil => simp at hlen
    | cons e es =>
      have hlen' : ds.length = es.length := by simpa using hlen
      have hd : d < 10 := hds d (List.mem_cons_self _ _)
      have he : e < 10 := hes e (List.mem_cons_self _ _)
      have hds' : ∀ x ∈ ds, x < 10 := fun x hx => hds x (List.mem_cons_of_mem _ hx)
      have hes' : ∀ x ∈ es, x < 10 := fun x hx => hes x (List.mem_cons_of_mem _ hx)
      have hVd : digitsVal ds < 10 ^ ds.length := digitsVal_lt ds hds'
      have hVe : digitsVal es < 10 ^ es.length := digitsVal_lt es hes'
      rw [hlen'] at hVd
      simp only [List.map_cons, strLtB] at *
      rw [lexLtB_cons, charLtB_digitChar d e hd he]
      rw [digitsVal_cons, digitsVal_cons, hlen']
      rcases Nat.lt_trichotomy d e with hlt | heq | hgt
      · have hmul : (d + 1) * 10 ^ es.length = d * 10 ^ es.length + 10 ^ es.length := by ring
        have hstep : (d + 1) * 10 ^ es.length ≤ e * 10 ^ es.length :=
          Nat.mul_le_mul_right _ (by omega)
        have h1 : d * 10 ^ es.length + digitsVal ds < e * 10 ^ es.length + digitsVal es := by
          linarith
        simp [hlt, h1]
      · subst heq
        rw [if_neg (by simp), if_pos rfl, ih es hlen' hds' hes']
        exact (decide_eq_decide).mpr (by omega)
      · have hnlt : ¬ d < e := by omega
        have hne : digitChar d ≠ digitChar e := fun h => by
          have := digitChar_inj d e hd he h; omega
        have hmul : (e + 1) * 10 ^ es.length = e * 10 ^ es.length + 10 ^ es.length := by ring
        have hstep : (e + 1) * 10 ^ es.length ≤ d * 10 ^ es.length :=
          Nat.mul_le_mul_right _ (by omega)
        have h1 : ¬ (d * 10 ^ es.length + digitsVal ds < e * 10 ^ es.length + digitsVal es) := by
          intro hcon
          linarith
        simp [hnlt, hne, h1]

theorem map_digitChar_inj (ds : List Nat) : ∀ es : List Nat,
    (∀ d ∈ ds, d < 10) → (∀ e ∈ es, e < 10) →
    ds.map digitChar = es.map digitChar → ds = es := by
  induction ds with
  | nil =>
    intro es _ _ h
    cases es with
    | nil => rfl
    | cons e es => simp at h
  | cons d ds ih =>
    intro es hds hes h
    cases es with
    | nil => simp at h
    | cons e es =>
      simp only [List.map_cons, List.cons.injEq] at h
      have h1 : d = e := digitChar_inj d e (hds d (List.mem_cons_self _ _))
        (hes e (List.mem_cons_self _ _)) h.1
      have h2 : ds = es := ih es (fun x hx => hds x (List.mem_cons_of_mem _ hx))
        (fun x hx => hes x (List.mem_cons_of_mem _ hx)) h.2
      rw [h1, h2]

theorem padDigits_length (x : Nat) (h : x < 10 ^ 10) : (padDigits x).length = 10 := by
  have := natDigits_length_le_ten x h
  simp only [padDigits, List.length_append, List.length_replicate]
  omega

theorem padDigits_mem_lt (x : Nat) : ∀ d ∈ padDigits x, d < 10 := by
  intro d hd
  rcases List.mem_append.mp hd with h | h
  · have := List.eq_of_mem_replicate h; omega
  · exact natDigits_mem_lt x d h

theorem padDigits_val (x : Nat) (h : x < 10 ^ 10) : digitsVal (padDigits x) = x := by
  rw [padDigits, digitsVal_replicate_zero]
  exact natDigits_val x (lt_trans h (by norm_num))

theorem lpad10_natStr (x : Nat) (h : x < 10 ^ 10) :
    lpad10 (natStr x) = (padDigits x).map digitChar := by
  have hlen : (natStr x).length = (natDigits x).length := List.length_map _ _
  have hle : (natDigits x).length ≤ 10 := natDigits_length_le_ten x h
  rw [lpad10, padDigits, List.map_append, List.map_replicate]
  by_cases h10 : 10 ≤ (natStr x).length
  · have : (natDigits x).length = 10 := by omega
    rw [if_pos h10]
    simp [natStr, this, List.take_of_length_le, hlen.trans this, le_refl]
  · rw [if_neg h10, hlen]
    rfl

theorem padded_lt (x y : Nat) (hx : x < 10 ^ 10) (hy : y < 10 ^ 10) :
    strLtB (lpad10 (natStr x)) (lpad10 (natStr y)) = decide (x < y) := by
  rw [lpad10_natStr x hx, lpad10_natStr y hy,
    strLtB_digits _ _ (by rw [padDigits_length x hx, padDigits_length y hy])
      (padDigits_mem_lt x) (padDigits_mem_lt y),
    padDigits_val x hx, padDigits_val y hy]

theorem padded_eq (x y : Nat) (hx : x < 10 ^ 10) (hy : y < 10 ^ 10) :
    (lpad10 (natStr x) = lpad10 (natStr y)) ↔ x = y := by
  constructor
  · intro h
    rw [lpad10_natStr x hx, lpad10_natStr y hy] at h
    have := map_digitChar_inj _ _ (padDigits_mem_lt x) (padDigits_mem_lt y) h
    have hv := congrArg digitsVal this
    rwa [padDigits_val x hx, padDigits_val y hy] at hv
  · intro h; rw [h]

/-! ## Character class facts -/

theorem natStr_isDigit (x : Nat) : ∀ c ∈ natStr x, c.isDigit = true := by
  intro c hc
  rcases List.mem_map.mp hc with ⟨d, hd, rfl⟩
  exact digitChar_isDigit d (natDigits_mem_lt x d hd)

theorem isDigit_ne_dot {c : Char} (h : c.isDigit = true) : c ≠ '.' := by
  intro heq; rw [heq] at h; exact absurd h (by decide)

theorem isDigit_ne_plus {c : Char} (h : c.isDigit = true) : c ≠ '+' := by
  intro heq; rw [heq] at h; exact absurd h (by decide)

theorem isDigit_ne_dash {c : Char} (h : c.isDigit = true) : c ≠ '-' := by
  intro heq; rw [heq] at h; exact absurd h (by decide)

theorem identCharOK_ne_dot {c : Char} (h : identCharOK c = true) : c ≠ '.' := by
  intro heq; rw [heq] at h; exact absurd h (by decide)

theorem identCharOK_ne_plus {c : Char} (h : identCharOK c = true) : c ≠ '+' := by
  intro heq; rw [heq] at h; exact absurd h (by decide)

/-! ## Splitting lemmas -/

theorem takeWhile_all {p : Char → Bool} (s : Str) (h : ∀ c ∈ s, p c = true) :
    s.takeWhile p = s := by
  induction s with
  | nil => rfl
  | cons c cs ih =>
    rw [List.takeWhile_cons, h c (List.mem_cons_self _ _)]
    simp [ih fun x hx => h x (List.mem_cons_of_mem _ hx)]

theorem takeWhile_append_stop {p : Char → Bool} (s : Str) (c : Char) (t : Str)
    (hs : ∀ x ∈ s, p x = true) (hc : p c = false) :
    (s ++ c :: t).takeWhile p = s := by
  induction s with
  | nil => simp [List.takeWhile_cons, hc]
  | cons x xs ih =>
    rw [List.cons_append, List.takeWhile_cons, hs x (List.mem_cons_self _ _)]
    simp [ih fun y hy => hs y (List.mem_cons_of_mem _ hy)]

theorem dropWhile_append_stop {p : Char → Bool} (s : Str) (c : Char) (t : Str)
    (hs : ∀ x ∈ s, p x = true) (hc : p c = false) :
    (s ++ c :: t).dropWhile p = c :: t := by
  induction s with
  | nil => simp [List.dropWhile_cons, hc]
  | cons x xs ih =>
    rw [List.cons_append, List.dropWhile_cons, hs x (List.mem_cons_self _ _)]
    simpa using ih fun y hy => hs y (List.mem_cons_of_mem _ hy)

theorem any_eq_false' {p : Char → Bool} (s : Str) (h : ∀ c ∈ s, p c = false) :
    s.any p = false := by
  induction s with
  | nil => rfl
  | cons c cs ih =>
    simp only [List.any_cons, h c (List.mem_cons_self _ _), Bool.false_or]
    exact ih fun x hx => h x (List.mem_cons_of_mem _ hx)

theorem splitDot_cons_ne (c : Char) (cs : Str) (h : ¬ c = '.') :
    splitDot (c :: cs)
      = match splitDot cs with
        | r :: rs => (c :: r) :: rs
        | [] => [[c]] := by
  simp [splitDot, h]

theorem splitDot_no_dot (s : Str) (h : ∀ c ∈ s, c ≠ '.') : splitDot s = [s] := by
  induction s with
  | nil => rfl
  | cons c cs ih =>
    rw [splitDot_cons_ne c cs (h c (List.mem_cons_self _ _)),
      ih fun x hx => h x (List.mem_cons_of_mem _ hx)]

theorem splitDot_sep (a rest : Str) (h : ∀ c ∈ a, c ≠ '.') :
    splitDot (a ++ '.' :: rest) = a :: splitDot rest := by
  induction a with
  | nil => simp [splitDot]
  | cons c cs ih =>
    rw [List.cons_append, splitDot_cons_ne c _ (h c (List.mem_cons_self _ _)),
      ih fun x hx => h x (List.mem_cons_of_mem _ hx)]

theorem joinDots_cons₂ (x y : Str) (xs : List Str) :
    joinDots (x :: y :: xs) = x ++ '.' :: joinDots (y :: xs) := rfl

theorem splitDot_join (l : List Str) (h : ∀ x ∈ l, ∀ c ∈ x, c ≠ '.') (hl : l ≠ []) :
    splitDot (joinDots l) = l := by
  induction l with
  | nil => exact absurd rfl hl
  | cons x xs ih =>
    cases xs with
    | nil => exact splitDot_no_dot x (h x (List.mem_cons_self _ _))
    | cons y ys =>
      rw [joinDots_cons₂, splitDot_sep x _ (h x (List.mem_cons_self _ _)),
        ih (fun z hz => h z (List.mem_cons_of_mem _ hz)) (by simp)]

theorem mem_joinDots {c : Char} (l : List Str) (h : c ∈ joinDots l) :
    (∃ x ∈ l, c ∈ x) ∨ c = '.' := by
  induction l with
  | nil => simp [joinDots] at h
  | cons x xs ih =>
    cases xs with
    | nil =>
      left; exact ⟨x, List.mem_cons_self _ _, h⟩
    | cons y ys =>
      rw [joinDots_cons₂] at h
      rcases List.mem_append.mp h with hx | hx
      · left; exact ⟨x, List.mem_cons_self _ _, hx⟩
      · rcases List.mem_cons.mp hx with hc | hc
        · right; exact hc
        · rcases ih hc with ⟨z, hz, hcz⟩ | hc'
          · left; exact ⟨z, List.mem_cons_of_mem _ hz, hcz⟩
          · right; exact hc'

/-! ## The closed form of the sort key on canonical version strings -/

theorem render_eq (v : Semver) (b : Option Str) :
    render v b = (coreStr v ++ preSuf v.pre) ++ buildSuf b := by
  cases hp : v.pre with
  | nil =>
    cases b with
    | none => simp [render, coreStr, preSuf, buildSuf, hp]
    | some s => simp [render, coreStr, preSuf, buildSuf, hp]
  | cons i is =>
    cases b with
    | none => simp [render, coreStr, preSuf, preJoin, buildSuf, hp]
    | some s => simp [render, coreStr, preSuf, preJoin, buildSuf, hp]

theorem coreStr_chars (v : Semver) :
    ∀ c ∈ coreStr v, c.isDigit = true ∨ c = '.' := by
  intro c hc
  simp only [coreStr, List.mem_append, List.mem_cons] at hc
  have h1 := natStr_isDigit v.major c
  have h2 := natStr_isDigit v.minor c
  have h3 := natStr_isDigit v.patch c
  tauto

theorem renderPreId_chars (i : PreId) (h : wfIdent i) :
    ∀ c ∈ renderPreId i, c.isDigit = true ∨ identCharOK c = true := by
  intro c hc
  cases i with
  | num n => exact Or.inl (natStr_isDigit n c hc)
  | alnum s => exact Or.inr (h.2.1 c hc)

theorem renderPreId_ne_nil (i : PreId) (h : wfIdent i) : renderPreId i ≠ [] := by
  cases i with
  | num n =>
    simp only [renderPreId, natStr]
    intro hcon
    exact natDigits_ne_nil n (List.map_eq_nil_iff.mp hcon)
  | alnum s => exact h.1

theorem natStr_ne_nil (n : Nat) : natStr n ≠ [] := fun h =>
  natDigits_ne_nil n (List.map_eq_nil_iff.mp h)

theorem isNumericIdent_natStr (n : Nat) : isNumericIdent (natStr n) = true := by
  unfold isNumericIdent
  have h1 : (natStr n).isEmpty = false := by
    cases h : natStr n with
    | nil => exact absurd h (natStr_ne_nil n)
    | cons c cs => rfl
  rw [h1]
  simp only [Bool.not_false, Bool.true_and, List.all_eq_true]
  exact fun c hc => natStr_isDigit n c hc

theorem key_render_nopre (M m p : Nat) (b : Option Str) :
    semver_sort_key (render ⟨M, m, p, []⟩ b) = keyOf ⟨M, m, p, []⟩ := by
  have hcore := coreStr_chars ⟨M, m, p, []⟩
  have hne_plus : ∀ c ∈ coreStr ⟨M, m, p, []⟩, ¬ c = '+' := by
    intro c hc
    rcases hcore c hc with h | h
    · exact isDigit_ne_plus h
    · rw [h]; decide
  have hne_dash : ∀ c ∈ coreStr ⟨M, m, p, []⟩, ¬ c = '-' := by
    intro c hc
    rcases hcore c hc with h | h
    · exact isDigit_ne_dash h
    · rw [h]; decide
  have hrend : render ⟨M, m, p, []⟩ b = coreStr ⟨M, m, p, []⟩ ++ buildSuf b := by
    rw [render_eq]; simp [preSuf]
  have hstrip : (render ⟨M, m, p, []⟩ b).takeWhile (fun c => c ≠ '+')
      = coreStr ⟨M, m, p, []⟩ := by
    rw [hrend]
    cases b with
    | none =>
      simp only [buildSuf, List.append_nil]
      exact takeWhile_all _ fun c hc => by simpa using hne_plus c hc
    | some s =>
      exact takeWhile_append_stop _ _ _ (fun c hc => by simpa using hne_plus c hc)
        (by decide)
  have hdash : (coreStr ⟨M, m, p, []⟩).any (fun c => c = '-') = false :=
    any_eq_false' _ fun c hc => by simpa using hne_dash c hc
  have hshape : coreStr ⟨M, m, p, []⟩ = natStr M ++ '.' :: (natStr m ++ '.' :: natStr p) := by
    simp [coreStr, List.cons_append, List.append_assoc]
  have hsplit : splitDot (coreStr ⟨M, m, p, []⟩) = [natStr M, natStr m, natStr p] := by
    rw [hshape,
      splitDot_sep _ _ fun c hc => isDigit_ne_dot (natStr_isDigit M c hc),
      splitDot_sep _ _ fun c hc => isDigit_ne_dot (natStr_isDigit m c hc),
      splitDot_no_dot _ fun c hc => isDigit_ne_dot (natStr_isDigit p c hc)]
  simp only [semver_sort_key, hstrip, hdash, hsplit, keyOf, keyTail]
  simp [hsplit, List.getD_cons_zero, List.getD_cons_succ]

theorem key_render_pre (M m p : Nat) (i : PreId) (is : List PreId)
    (hpre : ∀ j ∈ i :: is, wfIdent j) (b : Option Str) :
    semver_sort_key (render ⟨M, m, p, i :: is⟩ b) = keyOf ⟨M, m, p, i :: is⟩ := by
  have hcore := coreStr_chars ⟨M, m, p, i :: is⟩
  have hne_plus : ∀ c ∈ coreStr ⟨M, m, p, i :: is⟩, ¬ c = '+' := by
    intro c hc
    rcases hcore c hc with h | h
    · exact isDigit_ne_plus h
    · rw [h]; decide
  have hne_dash : ∀ c ∈ coreStr ⟨M, m, p, i :: is⟩, ¬ c = '-' := by
    intro c hc
    rcases hcore c hc with h | h
    · exact isDigit_ne_dash h
    · rw [h]; decide
  have hjoin_ne_plus : ∀ c ∈ preJoin (i :: is), ¬ c = '+' := by
    intro c hc
    rcases mem_joinDots _ hc with ⟨x, hx, hcx⟩ | h
    · rcases List.mem_map.mp hx with ⟨j, hj, rfl⟩
      rcases renderPreId_chars j (hpre j hj) c hcx with h | h
      · exact isDigit_ne_plus h
      · exact identCharOK_ne_plus h
    · rw [h]; decide
  have hrend : render ⟨M, m, p, i :: is⟩ b
      = (coreStr ⟨M, m, p, i :: is⟩ ++ '-' :: preJoin (i :: is)) ++ buildSuf b := by
    rw [render_eq]; simp [preSuf]
  have hall_ne_plus : ∀ c ∈ coreStr ⟨M, m, p, i :: is⟩ ++ '-' :: preJoin (i :: is),
      ¬ c = '+' := by
    intro c hc
    rcases List.mem_append.mp hc with h | h
    · exact hne_plus c h
    · rcases List.mem_cons.mp h with h | h
      · rw [h]; decide
      · exact hjoin_ne_plus c h
  have hstrip : (render ⟨M, m, p, i :: is⟩ b).takeWhile (fun c => c ≠ '+')
      = coreStr ⟨M, m, p, i :: is⟩ ++ '-' :: preJoin (i :: is) := by
    rw [hrend]
    cases b with
    | none =>
      simp only [buildSuf, List.append_nil]
      exact takeWhile_all _ fun c hc => by simpa using hall_ne_plus c hc
    | some s =>
      exact takeWhile_append_stop _ _ _ (fun c hc => by simpa using hall_ne_plus c hc)
        (by decide)
  have hdash : (coreStr ⟨M, m, p, i :: is⟩ ++ '-' :: preJoin (i :: is)).any
      (fun c => c = '-') = true :=
    List.any_eq_true.mpr ⟨'-', List.mem_append.mpr (Or.inr (List.mem_cons_self _ _)),
      by decide⟩
  have htake : (coreStr ⟨M, m, p, i :: is⟩ ++ '-' :: preJoin (i :: is)).takeWhile
      (fun c => c ≠ '-') = coreStr ⟨M, m, p, i :: is⟩ :=
    takeWhile_append_stop _ _ _ (fun c hc => by simpa using hne_dash c hc) (by decide)
  have hdrop : (coreStr ⟨M, m, p, i :: is⟩ ++ '-' :: preJoin (i :: is)).dropWhile
      (fun c => c ≠ '-') = '-' :: preJoin (i :: is) :=
    dropWhile_append_stop _ _ _ (fun c hc => by simpa using hne_dash c hc) (by decide)
  have hshape : coreStr ⟨M, m, p, i :: is⟩
      = natStr M ++ '.' :: (natStr m ++ '.' :: natStr p) := by
    simp [coreStr, List.cons_append, List.append_assoc]
  have hsplit : splitDot (coreStr ⟨M, m, p, i :: is⟩) = [natStr M, natStr m, natStr p] := by
    rw [hshape,
      splitDot_sep _ _ fun c hc => isDigit_ne_dot (natStr_isDigit M c hc),
      splitDot_sep _ _ fun c hc => isDigit_ne_dot (natStr_isDigit m c hc),
      splitDot_no_dot _ fun c hc => isDigit_ne_dot (natStr_isDigit p c hc)]
  have hsplitpre : splitDot (preJoin (i :: is)) = (i :: is).map renderPreId := by
    apply splitDot_join
    · intro x hx c hc
      rcases List.mem_map.mp hx with ⟨j, hj, rfl⟩
      rcases renderPreId_chars j (hpre j hj) c hc with h | h
      · exact isDigit_ne_dot h
      · exact identCharOK_ne_dot h
    · simp
  have hmapenc : ((i :: is).map renderPreId).map
      (fun id => if isNumericIdent id then '0' :: lpad10 id else '1' :: id)
      = (i :: is).map encIdent := by
    rw [List.map_map]
    apply List.map_congr_left
    intro j hj
    rcases j with n | s
    · simp [Function.comp, renderPreId, isNumericIdent_natStr n, encIdent]
    · have hwf := hpre _ hj
      have hnum : isNumericIdent s = false := by
        rcases hwf.2.2 with ⟨c, hc, hcd⟩
        unfold isNumericIdent
        have : s.all (fun c => c.isDigit) = false :=
          List.all_eq_false.mpr ⟨c, hc, by simp [hcd]⟩
        simp [this]
      simp [Function.comp, renderPreId, hnum, encIdent]
  simp only [semver_sort_key, hstrip, hdash, htake, hdrop, List.drop_succ_cons,
    List.drop_zero, hsplit, hsplitpre, hmapenc, keyOf, keyTail]
  simp [hsplit, hsplitpre, hmapenc, List.getD_cons_zero, List.getD_cons_succ]

/-- The sort key of the canonical string of a well-formed structured version
is its closed-form key. -/
theorem semver_sort_key_render (v : Semver) (hv : wfSemver v) (b : Option Str) :
    semver_sort_key (render v b) = keyOf v := by
  obtain ⟨M, m, p, pre⟩ := v
  cases pre with
  | nil => exact key_render_nopre M m p b
  | cons i is => exact key_render_pre M m p i is hv.2.2.2 b

/-! ## Key comparison agrees with spec precedence -/

theorem strLtB_encIdent (i j : PreId) (hi : wfIdent i) (hj : wfIdent j) :
    strLtB (encIdent i) (encIdent j) = identLtB i j := by
  cases i with
  | num n =>
    cases j with
    | num k =>
      show lexLtB charLtB ('0' :: lpad10 (natStr n)) ('0' :: lpad10 (natStr k)) = _
      rw [lexLtB_cons]
      have h0 : charLtB '0' '0' = false := by decide
      rw [h0, if_neg (by simp), if_pos rfl]
      exact padded_lt n k hi hj
    | alnum s =>
      show lexLtB charLtB ('0' :: _) ('1' :: _) = _
      rw [lexLtB_cons]
      have h0 : charLtB '0' '1' = true := by decide
      rw [h0]
      rfl
  | alnum s =>
    cases j with
    | num k =>
      show lexLtB charLtB ('1' :: _) ('0' :: _) = _
      rw [lexLtB_cons]
      have h0 : charLtB '1' '0' = false := by decide
      rw [h0, if_neg (by simp), if_neg (by simp)]
      rfl
    | alnum t =>
      show lexLtB charLtB ('1' :: s) ('1' :: t) = _
      rw [lexLtB_cons]
      have h0 : charLtB '1' '1' = false := by decide
      rw [h0, if_neg (by simp), if_pos rfl]
      rfl

theorem encIdent_inj (i j : PreId) (hi : wfIdent i) (hj : wfIdent j) :
    encIdent i = encIdent j ↔ i = j := by
  cases i with
  | num n =>
    cases j with
    | num k =>
      simp only [encIdent, List.cons.injEq, true_and]
      rw [padded_eq n k hi hj]
      simp
    | alnum s => simp [encIdent]
  | alnum s =>
    cases j with
    | num k => simp [encIdent]
    | alnum t => simp [encIdent]

theorem keyLtB_map_encIdent (as : List PreId) : ∀ bs : List PreId,
    (∀ i ∈ as, wfIdent i) → (∀ j ∈ bs, wfIdent j) →
    lexLtB strLtB (as.map encIdent) (bs.map encIdent) = lexLtB identLtB as bs := by
  induction as with
  | nil =>
    intro bs _ _
    cases bs with
    | nil => rfl
    | cons j js => rfl
  | cons a as ih =>
    intro bs has hbs
    cases bs with
    | nil => rfl
    | cons b bs =>
      have ha : wfIdent a := has a (List.mem_cons_self _ _)
      have hb : wfIdent b := hbs b (List.mem_cons_self _ _)
      simp only [List.map_cons]
      rw [lexLtB_cons, lexLtB_cons, strLtB_encIdent a b ha hb]
      by_cases heq : a = b
      · subst heq
        rw [if_pos rfl, if_pos rfl,
          ih bs (fun x hx => has x (List.mem_cons_of_mem _ hx))
            (fun x hx => hbs x (List.mem_cons_of_mem _ hx))]
      · have hne : ¬ encIdent a = encIdent b := fun h => heq ((encIdent_inj a b ha hb).mp h)
        rw [if_neg hne, if_neg heq]

theorem keyLtB_pre_part (as bs : List PreId)
    (has : ∀ i ∈ as, wfIdent i) (hbs : ∀ j ∈ bs, wfIdent j) :
    lexLtB strLtB (keyTail as) (keyTail bs) = prePartLtB as bs := by
  cases as with
  | nil =>
    cases bs with
    | nil => decide
    | cons j js =>
      show lexLtB strLtB [['1']] (['0'] :: _) = false
      rw [lexLtB_cons]
      have h1 : strLtB ['1'] ['0'] = false := by decide
      rw [h1, if_neg (by simp), if_neg (by simp)]
  | cons i is =>
    cases bs with
    | nil =>
      show lexLtB strLtB (['0'] :: _) [['1']] = true
      rw [lexLtB_cons]
      have h1 : strLtB ['0'] ['1'] = true := by decide
      rw [h1, if_pos rfl]
    | cons j js =>
      show lexLtB strLtB (['0'] :: _) (['0'] :: _) = preListLtB (i :: is) (j :: js)
      rw [lexLtB_cons]
      have h1 : strLtB ['0'] ['0'] = false := by decide
      rw [h1, if_neg (by simp), if_pos rfl]
      exact keyLtB_map_encIdent (i :: is) (j :: js) has hbs

theorem lt_layer (x y : Nat) (hx : x < 10 ^ 10) (hy : y < 10 ^ 10) (ta : Bool) :
    (if strLtB (lpad10 (natStr x)) (lpad10 (natStr y)) = true then true
     else if lpad10 (natStr x) = lpad10 (natStr y) then ta else false)
    = (if x ≠ y then decide (x < y) else ta) := by
  rw [padded_lt x y hx hy]
  by_cases h : x = y
  · subst h
    rw [if_neg (by simp), if_pos rfl, if_neg (by simp)]
  · have h2 : ¬ lpad10 (natStr x) = lpad10 (natStr y) :=
      fun hc => h ((padded_eq x y hx hy).mp hc)
    rw [if_neg h2, if_pos h]
    cases hd : decide (x < y) with
    | false => simp
    | true => simp

theorem keyLtB_keyOf (a b : Semver) (ha : wfSemver a) (hb : wfSemver b) :
    keyLtB (keyOf a) (keyOf b) = specSemverLt a b := by
  obtain ⟨A1, A2, A3, as⟩ := a
  obtain ⟨B1, B2, B3, bs⟩ := b
  obtain ⟨hA1, hA2, hA3, has⟩ := ha
  obtain ⟨hB1, hB2, hB3, hbs⟩ := hb
  have hkey : ∀ v : Semver, keyOf v
      = lpad10 (natStr v.major) :: lpad10 (natStr v.minor) :: lpad10 (natStr v.patch)
        :: keyTail v.pre := by
    intro v
    simp [keyOf]
  rw [keyLtB, hkey, hkey]
  rw [lexLtB_cons, lexLtB_cons, lexLtB_cons]
  rw [lt_layer A3 B3 hA3 hB3, lt_layer A2 B2 hA2 hB2, lt_layer A1 B1 hA1 hB1,
    keyLtB_pre_part as bs has hbs]
  rfl

/-- Key comparison of canonical strings agrees with spec precedence for
well-formed versions, whatever build metadata is attached. -/
theorem key_matches_precedence (a b : Semver) (ha : wfSemver a) (hb : wfSemver b)
    (ba bb : Option Str) :
    keyLtB (semver_sort_key (render a ba)) (semver_sort_key (render b bb))
      = specSemverLt a b := by
  rw [semver_sort_key_render a ha ba, semver_sort_key_render b hb bb]
  exact keyLtB_keyOf a b ha hb

/-! ## Strict-order properties of the lexicographic comparison -/

theorem lexLtB_irrefl {α : Type} [DecidableEq α] (lt : α → α → Bool)
    (hirr : ∀ a, lt a a = false) : ∀ l, lexLtB lt l l = false := by
  intro l
  induction l with
  | nil => rfl
  | cons a as ih => rw [lexLtB_cons, hirr a, if_neg (by simp), if_pos rfl, ih]

theorem lexLtB_trans {α : Type} [DecidableEq α] (lt : α → α → Bool)
    (htr : ∀ a b c, lt a b = true → lt b c = true → lt a c = true) :
    ∀ l₁ l₂ l₃, lexLtB lt l₁ l₂ = true → lexLtB lt l₂ l₃ = true →
      lexLtB lt l₁ l₃ = true := by
  intro l₁
  induction l₁ with
  | nil =>
    intro l₂ l₃ h12 h23
    cases l₂ with
    | nil => exact h23
    | cons b bs =>
      cases l₃ with
      | nil => simp [lexLtB] at h23
      | cons c cs => rfl
  | cons a as ih =>
    intro l₂ l₃ h12 h23
    cases l₂ with
    | nil => simp [lexLtB] at h12
    | cons b bs =>
      cases l₃ with
      | nil => simp [lexLtB] at h23
      | cons c cs =>
        rw [lexLtB_cons] at h12 h23 ⊢
        by_cases hab : lt a b = true
        · by_cases hbc : lt b c = true
          · rw [if_pos (htr a b c hab hbc)]
          · rw [if_neg hbc] at h23
            by_cases hbc' : b = c
            · subst hbc'
              rw [if_pos hab]
            · rw [if_neg hbc'] at h23
              exact absurd h23 (by simp)
        · rw [if_neg hab] at h12
          by_cases hab' : a = b
          · subst hab'
            rw [if_pos rfl] at h12
            by_cases hac : lt a c = true
            · rw [if_pos hac]
            · rw [if_neg hac] at h23 ⊢
              by_cases hac' : a = c
              · subst hac'
                rw [if_pos rfl] at h23 ⊢
                exact ih bs cs h12 h23
              · rw [if_neg hac'] at h23
                exact absurd h23 (by simp)
          · rw [if_neg hab'] at h12
            exact absurd h12 (by simp)

theorem lexLtB_connex {α : Type} [DecidableEq α] (lt : α → α → Bool)
    (hconn : ∀ a b, a ≠ b → lt a b = true ∨ lt b a = true) :
    ∀ l₁ l₂, l₁ ≠ l₂ → lexLtB lt l₁ l₂ = true ∨ lexLtB lt l₂ l₁ = true := by
  intro l₁
  induction l₁ with
  | nil =>
    intro l₂ hne
    cases l₂ with
    | nil => exact absurd rfl hne
    | cons b bs => exact Or.inl rfl
  | cons a as ih =>
    intro l₂ hne
    cases l₂ with
    | nil => exact Or.inr rfl
    | cons b bs =>
      by_cases hab : a = b
      · subst hab
        have hne' : as ≠ bs := fun h => hne (by rw [h])
        rcases ih bs hne' with h | h
        · left; rw [lexLtB_cons, if_pos rfl, h]; split <;> rfl
        · right; rw [lexLtB_cons, if_pos rfl, h]; split <;> rfl
      · rcases hconn a b hab with h | h
        · left; rw [lexLtB_cons, if_pos h]
        · right; rw [lexLtB_cons, if_pos h]

theorem charLtB_irrefl (a : Char) : charLtB a a = false := by
  simp [charLtB]

theorem charLtB_trans (a b c : Char) (h1 : charLtB a b = true) (h2 : charLtB b c = true) :
    charLtB a c = true := by
  simp only [charLtB, decide_eq_true_eq] at *
  exact lt_trans h1 h2

theorem charLtB_connex (a b : Char) (h : a ≠ b) :
    charLtB a b = true ∨ charLtB b a = true := by
  simp only [charLtB, decide_eq_true_eq]
  rcases lt_or_gt_of_ne h with h' | h'
  · exact Or.inl h'
  · exact Or.inr h'

theorem strLtB_irrefl (s : Str) : strLtB s s = false :=
  lexLtB_irrefl charLtB charLtB_irrefl s

theorem strLtB_trans (s t u : Str) (h1 : strLtB s t = true) (h2 : strLtB t u = true) :
    strLtB s u = true :=
  lexLtB_trans charLtB charLtB_trans s t u h1 h2

theorem strLtB_connex (s t : Str) (h : s ≠ t) :
    strLtB s t = true ∨ strLtB t s = true :=
  lexLtB_connex charLtB charLtB_connex s t h

theorem keyLtB_irrefl (k : List Str) : keyLtB k k = false :=
  lexLtB_irrefl strLtB strLtB_irrefl k

theorem keyLtB_trans (k₁ k₂ k₃ : List Str) (h1 : keyLtB k₁ k₂ = true)
    (h2 : keyLtB k₂ k₃ = true) : keyLtB k₁ k₃ = true :=
  lexLtB_trans strLtB strLtB_trans k₁ k₂ k₃ h1 h2

theorem keyLtB_connex (k₁ k₂ : List Str) (h : k₁ ≠ k₂) :
    keyLtB k₁ k₂ = true ∨ keyLtB k₂ k₁ = true :=
  lexLtB_connex strLtB strLtB_connex k₁ k₂ h

/-! ## Latest-version maintenance -/

theorem latestOf_cons_none (r : VersionRow) (rs : List VersionRow)
    (h : latestOf rs = none) : latestOf (r :: rs) = some r.version := by
  simp [latestOf, h]

theorem latestOf_cons_some (r : VersionRow) (rs : List VersionRow) (w : Str)
    (h : latestOf rs = some w) :
    latestOf (r :: rs)
      = if keyLtB (semver_sort_key w) (semver_sort_key r.version) then some r.version
        else some w := by
  simp [latestOf, h]

theorem latestOf_eq_none (rows : List VersionRow) :
    latestOf rows = none ↔ rows = [] := by
  cases rows with
  | nil => simp [latestOf]
  | cons r rs =>
    constructor
    · intro h
      cases hl : latestOf rs with
      | none => rw [latestOf_cons_none r rs hl] at h; simp at h
      | some w =>
        rw [latestOf_cons_some r rs w hl] at h
        by_cases hk : keyLtB (semver_sort_key w) (semver_sort_key r.version) = true
        · rw [if_pos hk] at h; simp at h
        · rw [if_neg hk] at h; simp at h
    · intro h; simp at h

theorem latestOf_mem (rows : List VersionRow) : ∀ w : Str, latestOf rows = some w →
    ∃ r ∈ rows, r.version = w := by
  induction rows with
  | nil => intro w h; simp [latestOf] at h
  | cons r rs ih =>
    intro w h
    cases hl : latestOf rs with
    | none =>
      rw [latestOf_cons_none r rs hl] at h
      exact ⟨r, List.mem_cons_self _ _, Option.some.inj h⟩
    | some w' =>
      rw [latestOf_cons_some r rs w' hl] at h
      by_cases hk : keyLtB (semver_sort_key w') (semver_sort_key r.version) = true
      · rw [if_pos hk] at h
        exact ⟨r, List.mem_cons_self _ _, Option.some.inj h⟩
      · rw [if_neg hk] at h
        have hww : w' = w := Option.some.inj h
        subst hww
        obtain ⟨u, hu, huv⟩ := ih w' hl
        exact ⟨u, List.mem_cons_of_mem _ hu, huv⟩

theorem latestOf_max (rows : List VersionRow) : ∀ w : Str, latestOf rows = some w →
    ∀ r ∈ rows, keyLtB (semver_sort_key w) (semver_sort_key r.version) = false := by
  induction rows with
  | nil => intro w h; simp [latestOf] at h
  | cons r rs ih =>
    intro w h u hu
    cases hl : latestOf rs with
    | none =>
      rw [latestOf_cons_none r rs hl] at h
      have hw : r.version = w := Option.some.inj h
      have hrs : rs = [] := (latestOf_eq_none rs).mp hl
      subst hrs
      rcases List.mem_cons.mp hu with rfl | hmem
      · rw [← hw]; exact keyLtB_irrefl _
      · simp at hmem
    | some w' =>
      rw [latestOf_cons_some r rs w' hl] at h
      by_cases hk : keyLtB (semver_sort_key w') (semver_sort_key r.version) = true
      · rw [if_pos hk] at h
        have hw : r.version = w := Option.some.inj h
        subst hw
        rcases List.mem_cons.mp hu with rfl | hmem
        · exact keyLtB_irrefl _
        · have hmax := ih w' hl u hmem
          by_contra hcon
          have htrue : keyLtB (semver_sort_key r.version) (semver_sort_key u.version)
              = true := by
            cases hx : keyLtB (semver_sort_key r.version) (semver_sort_key u.version) with
            | false => exact absurd hx hcon
            | true => rfl
          have := keyLtB_trans _ _ _ hk htrue
          rw [hmax] at this
          exact absurd this (by simp)
      · rw [if_neg hk] at h
        have hw : w' = w := Option.some.inj h
        subst hw
        rcases List.mem_cons.mp hu with rfl | hmem
        · exact Bool.eq_false_iff.mpr hk
        · exact ih w' hl u hmem

theorem applyVOp_inv (st : SkillState) (op : VOp) (h : skillInv st) :
    skillInv (applyVOp st op) := by
  cases op with
  | ins v b c =>
    simp only [applyVOp, insertVersion]
    by_cases hdup : (st.versions.any fun r => decide (r.version = render v b)) = true
    · rw [if_pos hdup]
      exact h
    · rw [if_neg hdup]
      rfl
  | del v b =>
    simp only [applyVOp, deleteVersion]
    by_cases hex : (st.versions.any fun r => decide (r.version = render v b)) = true
    · rw [if_pos hex]
      rfl
    · rw [if_neg hex]
      exact h

theorem exec_inv (ops : List VOp) : skillInv (execVOps ops) := by
  unfold execVOps
  have h : ∀ st : SkillState, skillInv st → skillInv (ops.foldl applyVOp st) := by
    induction ops with
    | nil => intro st h; exact h
    | cons op ops ih => intro st h; exact ih _ (applyVOp_inv st op h)
  exact h initSkill rfl

theorem applyVOp_rowsWf (st : SkillState) (op : VOp) (hop : wfSemver op.semver)
    (h : rowsWf st) : rowsWf (applyVOp st op) := by
  cases op with
  | ins v b c =>
    simp only [applyVOp, insertVersion]
    by_cases hdup : (st.versions.any fun r => decide (r.version = render v b)) = true
    · rw [if_pos hdup]; exact h
    · rw [if_neg hdup]
      intro r hr
      rcases List.mem_cons.mp hr with rfl | hmem
      · exact ⟨v, b, hop, rfl⟩
      · exact h r hmem
  | del v b =>
    simp only [applyVOp, deleteVersion]
    by_cases hex : (st.versions.any fun r => decide (r.version = render v b)) = true
    · rw [if_pos hex]
      intro r hr
      exact h r (List.mem_of_mem_filter hr)
    · rw [if_neg hex]; exact h

theorem foldl_rowsWf (ops : List VOp) : ∀ st : SkillState, rowsWf st →
    (∀ op ∈ ops, wfSemver op.semver) → rowsWf (ops.foldl applyVOp st) := by
  induction ops with
  | nil => intro st h _; exact h
  | cons op ops ih =>
    intro st h hwf
    exact ih _ (applyVOp_rowsWf st op (hwf op (List.mem_cons_self _ _)) h)
      (fun o ho => hwf o (List.mem_cons_of_mem _ ho))

theorem exec_rowsWf (ops : List VOp) (hwf : ∀ op ∈ ops, wfSemver op.semver) :
    rowsWf (execVOps ops) :=
  foldl_rowsWf ops initSkill (by intro r hr; simp [initSkill] at hr) hwf

example : natStr 9999999999 = "9999999999".data := by decide

/-! ## Claim C1 -/

/-- C1 (amended): for semantic versions whose numeric core fields and numeric
pre-release identifiers have at most 10 decimal digits (the zero-pad width of
`semver_sort_key`), the composite sort key orders canonical version strings
exactly by semver precedence: build metadata after `'+'` is ignored, core
fields compare numerically, a release outranks a pre-release of the same
core, and pre-release identifiers compare left to right with numeric
identifiers comparing numerically and ranking below alphanumeric ones. -/
theorem C1_semver_key_matches_precedence (a b : Semver) (ba bb : Option Str)
    (ha : wfSemver a) (hb : wfSemver b) :
    keyLtB (semver_sort_key (render a ba)) (semver_sort_key (render b bb))
      = specSemverLt a b :=
  key_matches_precedence a b ha hb ba bb

/-- Witness for C1: the theorem applied at `1.0.0-2` and `1.0.0-11`, where
the spec order indeed holds (`2 < 11` numerically). -/
theorem C1_witness :
    wfSemver ⟨1, 0, 0, [.num 2]⟩ ∧ wfSemver ⟨1, 0, 0, [.num 11]⟩
    ∧ keyLtB (semver_sort_key (render ⟨1, 0, 0, [.num 2]⟩ none))
        (semver_sort_key (render ⟨1, 0, 0, [.num 11]⟩ none))
      = specSemverLt ⟨1, 0, 0, [.num 2]⟩ ⟨1, 0, 0, [.num 11]⟩
    ∧ specSemverLt ⟨1, 0, 0, [.num 2]⟩ ⟨1, 0, 0, [.num 11]⟩ = true
    ∧ render ⟨1, 0, 0, [.num 2]⟩ none = "1.0.0-2".data :=
  ⟨by decide, by decide,
    C1_semver_key_matches_precedence _ _ none none (by decide) (by decide),
    by decide, by decide⟩

/-- Counterexample to C1 as stated (over all version strings): `lpad`
truncates an 11-digit numeric pre-release identifier to its first 10 digits,
so the key orders `1.0.0-10000000000` below `1.0.0-9999999999`, the opposite
of semver precedence. -/
theorem C1_counterexample :
    render ⟨1, 0, 0, [.num 9999999999]⟩ none = "1.0.0-9999999999".data
    ∧ render ⟨1, 0, 0, [.num 10000000000]⟩ none = "1.0.0-10000000000".data
    ∧ specSemverLt ⟨1, 0, 0, [.num 9999999999]⟩ ⟨1, 0, 0, [.num 10000000000]⟩ = true
    ∧ keyLtB (semver_sort_key "1.0.0-9999999999".data)
        (semver_sort_key "1.0.0-10000000000".data) = false
    ∧ keyLtB (semver_sort_key "1.0.0-10000000000".data)
        (semver_sort_key "1.0.0-9999999999".data) = true :=
  ⟨by decide, by decide, by decide, by decide, by decide⟩

/-! ## Claim C2 -/

/-- C2 (amended): for every sequence of version inserts and deletes naming
well-formed semantic versions (numeric fields below the 10-digit pad width),
after each operation the skill's `latest_version` equals a surviving version
of maximal semver precedence — no surviving version has strictly higher
precedence — and is null exactly when no version survives; both inserts and
deletes trigger the recomputation. -/
theorem C2_latest_version_tracks_max (ops : List VOp)
    (hwf : ∀ op ∈ ops, wfSemver op.semver) :
    ((execVOps ops).versions = [] ↔ (execVOps ops).latest_version = none)
    ∧ ∀ w, (execVOps ops).latest_version = some w →
        (∃ r ∈ (execVOps ops).versions, r.version = w)
        ∧ (∃ a ba, wfSemver a ∧ w = render a ba)
        ∧ ∀ r ∈ (execVOps ops).versions, ∀ a v : Semver, ∀ ba bv : Option Str,
            wfSemver a → wfSemver v → w = render a ba → r.version = render v bv →
            specSemverLt a v = false := by
  have hinv := exec_inv ops
  constructor
  · constructor
    · intro h; rw [hinv, (latestOf_eq_none _).mpr h]
    · intro h; rw [hinv] at h; exact (latestOf_eq_none _).mp h
  · intro w hw
    rw [hinv] at hw
    refine ⟨latestOf_mem _ w hw, ?_, ?_⟩
    · obtain ⟨r, hr, hrv⟩ := latestOf_mem _ w hw
      obtain ⟨a, ba, hwa, heq⟩ := exec_rowsWf ops hwf r hr
      exact ⟨a, ba, hwa, by rw [← hrv, heq]⟩
    · intro r hr a v ba bv hwa hwv hweq hreq
      have hmax := latestOf_max _ w hw r hr
      rw [hweq, hreq] at hmax
      rw [← key_matches_precedence a v hwa hwv ba bv]
      exact hmax

/-- Witness for C2: the theorem applied to the sequence
insert `1.0.1`, insert `1.0.0`, where the final `latest_version` is
`1.0.1`. -/
theorem C2_witness :
    (∀ op ∈ ([.ins ⟨1, 0, 1, []⟩ none [], .ins ⟨1, 0, 0, []⟩ none []] : List VOp),
      wfSemver op.semver)
    ∧ ((execVOps [.ins ⟨1, 0, 1, []⟩ none [], .ins ⟨1, 0, 0, []⟩ none []]).versions = []
        ↔ (execVOps [.ins ⟨1, 0, 1, []⟩ none [],
            .ins ⟨1, 0, 0, []⟩ none []]).latest_version = none)
    ∧ (execVOps [.ins ⟨1, 0, 1, []⟩ none [], .ins ⟨1, 0, 0, []⟩ none []]).latest_version
        = some ("1.0.1".data) :=
  ⟨by decide,
    (C2_latest_version_tracks_max
      [.ins ⟨1, 0, 1, []⟩ none [], .ins ⟨1, 0, 0, []⟩ none []] (by decide)).1,
    by decide⟩

/-- Counterexample to C2 as stated (over all version strings): after
inserting `1.0.0-9999999999` and `1.0.0-10000000000`, the stored
`latest_version` is `1.0.0-9999999999`, while the surviving version
`1.0.0-10000000000` has strictly higher semver precedence. -/
theorem C2_counterexample :
    (execVOps [.ins ⟨1, 0, 0, [.num 9999999999]⟩ none [],
        .ins ⟨1, 0, 0, [.num 10000000000]⟩ none []]).latest_version
      = some ("1.0.0-9999999999".data)
    ∧ ("1.0.0-10000000000".data) ∈ (execVOps [.ins ⟨1, 0, 0, [.num 9999999999]⟩ none [],
        .ins ⟨1, 0, 0, [.num 10000000000]⟩ none []]).versions.map VersionRow.version
    ∧ specSemverLt ⟨1, 0, 0, [.num 9999999999]⟩ ⟨1, 0, 0, [.num 10000000000]⟩ = true :=
  ⟨by decide, by decide, by decide⟩
example : natStr 0 = "0".data := by decide
example : render ⟨1, 0, 0, [.num 2]⟩ none = "1.0.0-2".data := by decide
example : render ⟨1, 2, 3, [.alnum "alpha".data, .num 1]⟩ (some "build5".data)
    = "1.2.3-alpha.1+build5".data := by decide
example : semver_sort_key "1.0.0-2".data
    = ["0000000001".data, "0000000000".data, "0000000000".data, "0".data,
       "00000000002".data] := by decide
example : semver_sort_key "1.0.1".data
    = ["0000000001".data, "0000000000".data, "0000000001".data, "1".data] := by decide
example : keyLtB (semver_sort_key "1.0.0-2".data) (semver_sort_key "1.0.0-11".data)
    = true := by decide
example : keyLtB (semver_sort_key "1.0.0-11".data) (semver_sort_key "1.0.0".data)
    = true := by decide
example : keyLtB (semver_sort_key "1.0.0".data) (semver_sort_key "1.0.1".data)
    = true := by decide
example : specSemverLt ⟨1, 0, 0, [.num 2]⟩ ⟨1, 0, 0, [.num 11]⟩ = true := by decide
example : specSemverLt ⟨1, 0, 0, [.num 11]⟩ ⟨1, 0, 0, []⟩ = true := by decide

-- The 10-digit pad width is a real boundary: `lpad` truncation misorders
-- 11-digit numeric identifiers.
example : specSemverLt ⟨1, 0, 0, [.num 9999999999]⟩ ⟨1, 0, 0, [.num 10000000000]⟩
    = true := by decide
example : keyLtB (semver_sort_key "1.0.0-9999999999".data)
    (semver_sort_key "1.0.0-10000000000".data) = false := by decide
/-! ## Claim C3 -/

theorem sqlEqU_none_left (u : Option UserId) : sqlEqU none u = false := by
  cases u with
  | none => rfl
  | some x => rfl

/-- C3: the skills visibility policy grants access: a public skill to every
principal; a private skill to no principal other than the personal owner; an
org-visibility org-owned skill exactly to members of the owning
organization; a team-visibility org-owned skill exactly to members of the
referenced team; and every principal always sees the skills they personally
own, regardless of visibility. -/
theorem C3_canView_policy (d : Directory) (u : Option UserId) (s : Skill) :
    (s.visibility = .publicV → canView d u s = true)
    ∧ (s.visibility = .privateV → sqlEqU s.owner_id u = false → canView d u s = false)
    ∧ (∀ o, s.visibility = .orgV → s.owner_id = none → s.owner_org_id = some o →
        canView d u s = is_org_member d o u)
    ∧ (∀ t, s.visibility = .teamV → s.owner_id = none → s.team_id = some t →
        canView d u s = is_team_member d t u)
    ∧ (∀ uid, s.owner_id = some uid → u = some uid → canView d u s = true) := by
  refine ⟨?_, ?_, ?_, ?_, ?_⟩
  · intro h
    simp [canView, h]
  · intro h h2
    simp [canView, h, h2]
  · intro o h ho hoo
    simp [canView, h, ho, hoo, sqlEqU_none_left]
  · intro t h ho ht
    simp [canView, h, ho, ht, sqlEqU_none_left]
  · intro uid h hu
    subst hu
    simp [canView, h, sqlEqU]

/-- Witness for C3: concrete directory with one org membership; the policy
grants the org member view on the org skill, everyone on a public skill, and
denies a stranger on a private skill. -/
theorem C3_witness :
    canView ⟨[⟨1, 10, .member⟩], []⟩ (some 10) ⟨none, some 1, none, .orgV⟩
      = is_org_member ⟨[⟨1, 10, .member⟩], []⟩ 1 (some 10)
    ∧ is_org_member ⟨[⟨1, 10, .member⟩], []⟩ 1 (some 10) = true
    ∧ canView ⟨[], []⟩ none ⟨some 7, none, none, .publicV⟩ = true
    ∧ canView ⟨[], []⟩ (some 3) ⟨some 7, none, none, .privateV⟩ = false :=
  ⟨(C3_canView_policy _ _ _).2.2.1 1 rfl rfl rfl,
    by decide,
    (C3_canView_policy _ _ _).1 rfl,
    (C3_canView_policy _ _ _).2.1 rfl (by decide)⟩

/-! ## Claim C7 -/

/-- C7: deleting a team turns each skill that referenced it into an
org-visibility skill with no team reference — the row survives (the list
keeps its length), the rewritten row still satisfies the skills CHECK
constraints, both owner columns are untouched, and skills not referencing
the team are unchanged. -/
theorem C7_team_delete_detaches (t : TeamId) (skills : List Skill) (s : Skill)
    (hs : s ∈ skills) (hvis : s.visibility = .teamV) (href : s.team_id = some t) :
    onTeamDelete t s = { s with team_id := none, visibility := .orgV }
    ∧ { s with team_id := none, visibility := .orgV } ∈ deleteTeamSkills t skills
    ∧ (deleteTeamSkills t skills).length = skills.length
    ∧ (skillChecksOK s = true → skillChecksOK (onTeamDelete t s) = true)
    ∧ (onTeamDelete t s).owner_id = s.owner_id
    ∧ (onTeamDelete t s).owner_org_id = s.owner_org_id
    ∧ ∀ x ∈ skills, x.team_id ≠ some t → onTeamDelete t x = x := by
  have heq : onTeamDelete t s = { s with team_id := none, visibility := .orgV } := by
    simp [onTeamDelete, href, fix_team_skill_visibility, hvis]
  refine ⟨heq, ?_, ?_, ?_, ?_, ?_, ?_⟩
  · have hmem := List.mem_map_of_mem (onTeamDelete t) hs
    rw [heq] at hmem
    exact hmem
  · simp [deleteTeamSkills]
  · intro hchecks
    rw [heq]
    simp only [skillChecksOK, hvis] at hchecks ⊢
    simp only [Bool.and_eq_true, Bool.or_eq_true, decide_eq_true_eq] at hchecks ⊢
    refine ⟨⟨hchecks.1.1, ?_⟩, ?_⟩
    · simp
    · simp
  · rw [heq]
  · rw [heq]
  · intro x hx hxne
    simp [onTeamDelete, hxne]

/-- Witness for C7: a team skill owned by org 1 and scoped to team 5 becomes
an org skill that still satisfies the CHECK constraints. -/
theorem C7_witness :
    onTeamDelete 5 ⟨none, some 1, some 5, .teamV⟩ = ⟨none, some 1, none, .orgV⟩
    ∧ skillChecksOK (⟨none, some 1, none, .orgV⟩ : Skill) = true :=
  ⟨(C7_team_delete_detaches 5 [⟨none, some 1, some 5, .teamV⟩] _
      (List.mem_cons_self _ _) rfl rfl).1,
    by decide⟩

/-! ## Claim C8 -/

/-- C8 (amended): publishing a version whose `(skill, version)` pair already
exists fails — the unique constraint rejects the insert and the function
throws a plain `Error` (not a `ConflictError`, which the taxonomy does not
define) saying the version already exists — and the store, including the
existing immutable version record, is unchanged. -/
theorem C8_duplicate_version_rejected (st : SkillState) (v c : Str)
    (hdup : (st.versions.any fun r => decide (r.version = v)) = true) :
    (∃ e, publishVersionInsert st v c none = .error e
      ∧ e.name = ErrName.generic
      ∧ e.msg = "Version ".data ++ v ++ " already exists".data)
    ∧ persistedAfterPublish st v c none = st := by
  have hins : insertVersion st v c = .error () := by
    simp [insertVersion, hdup]
  constructor
  · refine ⟨⟨ErrName.generic, "Version ".data ++ v ++ " already exists".data⟩, ?_, rfl, rfl⟩
    simp [publishVersionInsert, hins]
  · simp [persistedAfterPublish, publishVersionInsert, hins]

/-- Witness for C8: re-publishing `1.0.0` over an existing `1.0.0` record
fails and leaves the store unchanged. -/
theorem C8_witness :
    (∃ e, publishVersionInsert ⟨[⟨"1.0.0".data, "old".data⟩], some "1.0.0".data⟩
        "1.0.0".data "new".data none = .error e
      ∧ e.name = ErrName.generic
      ∧ e.msg = "Version ".data ++ "1.0.0".data ++ " already exists".data)
    ∧ persistedAfterPublish ⟨[⟨"1.0.0".data, "old".data⟩], some "1.0.0".data⟩
        "1.0.0".data "new".data none
      = ⟨[⟨"1.0.0".data, "old".data⟩], some "1.0.0".data⟩ :=
  C8_duplicate_version_rejected ⟨[⟨"1.0.0".data, "old".data⟩], some "1.0.0".data⟩
    "1.0.0".data "new".data (by decide)

/-- Counterexample to C8 as stated: the duplicate-version failure is a plain
`Error` (name `"Error"`), and no error class in the taxonomy is called
`ConflictError`, so the call cannot fail with `ConflictError`. -/
theorem C8_counterexample :
    publishVersionInsert ⟨[⟨"1.0.0".data, "old".data⟩], some "1.0.0".data⟩
        "1.0.0".data "new".data none
      = .error ⟨.generic, "Version 1.0.0 already exists".data⟩
    ∧ errNameStr .generic = "Error".data
    ∧ (∀ k : ErrName, errNameStr k ≠ "ConflictError".data) :=
  ⟨rfl, by decide, by decide⟩

/-! ## Claim C9 -/

/-- C9 (amended): a store failure during the rate-limit check is swallowed —
`checkRateLimit` logs and returns, so the wrapped operation proceeds exactly
as if the check had allowed it; a rate-limit denial raises `RateLimitError`;
a store failure in the version-insert path of `publishVersion`, by contrast,
propagates to the caller as an error. -/
theorem C9_rate_limit_check_failure_swallowed :
    (∀ (msg : Str) (α : Type) (op : Except Err α), withRateLimitTS (.error msg) op = op)
    ∧ (∀ r : RLResult, r.allowed = false → ∀ (α : Type) (op : Except Err α),
        withRateLimitTS (.ok r) op
          = .error ⟨.rateLimitError, "Rate limit exceeded. Please try again later.".data⟩)
    ∧ (∀ (st : SkillState) (v c m : Str),
        publishVersionInsert st v c (some m)
          = .error ⟨.generic, "Failed to publish version: ".data ++ m⟩) := by
  refine ⟨?_, ?_, ?_⟩
  · intro msg α op
    rfl
  · intro r hr α op
    simp [withRateLimitTS, checkRateLimitTS, hr]
  · intro st v c m
    rfl

/-- Witness for C9: a failing store call lets the operation through; an
explicit denial raises `RateLimitError`. -/
theorem C9_witness :
    withRateLimitTS (Except.error "fetch failed".data) (Except.ok (5 : Nat))
      = Except.ok 5
    ∧ withRateLimitTS (Except.ok ⟨false, some 60, some 0, some 0, some 10⟩)
        (Except.ok (5 : Nat))
      = Except.error ⟨.rateLimitError, "Rate limit exceeded. Please try again later.".data⟩ :=
  ⟨C9_rate_limit_check_failure_swallowed.1 _ _ _,
    C9_rate_limit_check_failure_swallowed.2.1 _ rfl _ _⟩

/-- Counterexample to C9 as stated: when the rate-limit store call fails,
`checkRateLimit` returns success instead of propagating the failure, and the
wrapped operation runs as if allowed. -/
theorem C9_counterexample :
    checkRateLimitTS (Except.error "fetch failed".data) = Except.ok ()
    ∧ withRateLimitTS (Except.error "fetch failed".data) (Except.ok (42 : Nat))
      = Except.ok 42 :=
  ⟨rfl, rfl⟩

/-! ## Claim C4 -/

theorem two_mem_le_length {α : Type} (l : List α) (x y : α) (hx : x ∈ l)
    (hy : y ∈ l) (hne : x ≠ y) : 2 ≤ l.length := by
  induction l with
  | nil => simp at hx
  | cons a as ih =>
    rcases List.mem_cons.mp hx with rfl | hx'
    · rcases List.mem_cons.mp hy with rfl | hy'
      · exact absurd rfl hne
      · have := List.length_pos_of_mem hy'
        simp only [List.length_cons]
        omega
    · rcases List.mem_cons.mp hy with rfl | hy'
      · have := List.length_pos_of_mem hx'
        simp only [List.length_cons]
        omega
      · have := ih hx' hy'
        simp only [List.length_cons]
        omega

/-- C4 (amended): removing the sole remaining owner of an organization
always fails — `removeOrgMember` throws a plain `Error` (there is no
`InvariantError` class in the taxonomy) and the membership is unchanged;
demoting the sole owner is likewise rejected by the last-owner trigger; and
when the organization has two owners, removing one succeeds and deletes
exactly that membership row. -/
theorem C4_last_owner_protection :
    (∀ (db : RegistryDb) (slug username : Str) (o : OrgId) (uid : UserId),
      db.orgs.find? (fun x => decide (x.2 = slug)) = some (o, slug) →
      db.users.find? (fun x => decide (x.2 = username)) = some (uid, username) →
      (db.org_members.filter fun m =>
        decide (m.org = o) && decide (m.role = Role.owner)) = [⟨o, uid, Role.owner⟩] →
      removeOrgMember db slug username
        = .error ⟨.generic, "Cannot remove the last owner. Transfer ownership first.".data⟩)
    ∧ (∀ (members : List OrgMem) (o : OrgId) (uid : UserId) (r : Role),
      members.find? (fun m => decide (m.org = o) && decide (m.user = uid))
        = some ⟨o, uid, Role.owner⟩ →
      otherOwnerExists members o uid = false → r ≠ Role.owner →
      dbUpdateMemberRole members o uid r
        = .error ⟨.generic, "Cannot demote the last owner of an organization".data⟩)
    ∧ (∀ (db : RegistryDb) (slug username : Str) (o : OrgId) (uid uid₂ : UserId),
      db.orgs.find? (fun x => decide (x.2 = slug)) = some (o, slug) →
      db.users.find? (fun x => decide (x.2 = username)) = some (uid, username) →
      (⟨o, uid, Role.owner⟩ : OrgMem) ∈ db.org_members →
      (⟨o, uid₂, Role.owner⟩ : OrgMem) ∈ db.org_members → uid ≠ uid₂ →
      ∃ db', removeOrgMember db slug username = .ok db'
        ∧ db'.org_members = db.org_members.filter
            (fun m => !(decide (m.org = o) && decide (m.user = uid)))
        ∧ db'.orgs = db.orgs) := by
  refine ⟨?_, ?_, ?_⟩
  · intro db slug username o uid hfind huser howners
    simp only [removeOrgMember, hfind, huser, howners]
    simp [List.head?]
  · intro members o uid r hfind hooe hr
    simp only [dbUpdateMemberRole, hfind]
    simp [hr, hooe]
  · intro db slug username o uid uid₂ hfind huser h1 h2 hne
    have hmem1 : (⟨o, uid, Role.owner⟩ : OrgMem) ∈ db.org_members.filter
        (fun m => decide (m.org = o) && decide (m.role = Role.owner)) :=
      List.mem_filter.mpr ⟨h1, by simp⟩
    have hmem2 : (⟨o, uid₂, Role.owner⟩ : OrgMem) ∈ db.org_members.filter
        (fun m => decide (m.org = o) && decide (m.role = Role.owner)) :=
      List.mem_filter.mpr ⟨h2, by simp⟩
    have hlen : 2 ≤ (db.org_members.filter
        (fun m => decide (m.org = o) && decide (m.role = Role.owner))).length :=
      two_mem_le_length _ _ _ hmem1 hmem2 (by simp [hne])
    have hooe : otherOwnerExists db.org_members o uid = true := by
      unfold otherOwnerExists
      rw [List.any_eq_true]
      refine ⟨⟨o, uid₂, Role.owner⟩, h2, ?_⟩
      simp [Ne.symm hne]
    have hdel : dbDeleteMember db.org_members o uid
        = .ok (db.org_members.filter
            (fun m => !(decide (m.org = o) && decide (m.user = uid)))) := by
      unfold dbDeleteMember
      cases hf : db.org_members.find? (fun m => decide (m.org = o) && decide (m.user = uid)) with
      | none =>
        have := List.find?_eq_none.mp hf _ h1
        simp at this
      | some row =>
        simp only
        rw [if_neg]
        simp only [hooe, Bool.not_true, Bool.and_false]
        simp
    simp only [removeOrgMember, hfind, huser]
    rw [if_neg]
    · rw [hdel]
      exact ⟨_, rfl, rfl, rfl⟩
    · have hlen1 : decide ((db.org_members.filter fun m =>
          decide (m.org = o) && decide (m.role = Role.owner)).length = 1) = false := by
        rw [decide_eq_false_iff_not]
        omega
      simp [hlen1]

/-- Witness for C4: a one-owner org rejects removing that owner and demoting
them; a two-owner org allows removing one owner. -/
theorem C4_witness :
    removeOrgMember ⟨[(1, "acme".data)], [(10, "alice".data)], [⟨1, 10, .owner⟩]⟩
        "acme".data "alice".data
      = .error ⟨.generic, "Cannot remove the last owner. Transfer ownership first.".data⟩
    ∧ dbUpdateMemberRole [⟨1, 10, .owner⟩] 1 10 Role.member
      = .error ⟨.generic, "Cannot demote the last owner of an organization".data⟩
    ∧ ∃ db', removeOrgMember
        ⟨[(1, "acme".data)], [(10, "alice".data)], [⟨1, 10, .owner⟩, ⟨1, 20, .owner⟩]⟩
        "acme".data "alice".data = .ok db'
      ∧ db'.org_members = [⟨1, 20, .owner⟩] :=
  ⟨C4_last_owner_protection.1 _ "acme".data "alice".data 1 10 (by decide) (by decide)
      (by decide),
    C4_last_owner_protection.2.1 [⟨1, 10, .owner⟩] 1 10 Role.member (by decide)
      (by decide) (by decide),
    by
      obtain ⟨db', hok, hmem, -⟩ := C4_last_owner_protection.2.2
        ⟨[(1, "acme".data)], [(10, "alice".data)], [⟨1, 10, .owner⟩, ⟨1, 20, .owner⟩]⟩
        "acme".data "alice".data 1 10 20 (by decide) (by decide)
        (List.mem_cons_self _ _) (List.mem_cons_of_mem _ (List.mem_cons_self _ _))
        (by decide)
      exact ⟨db', hok, by rw [hmem]; rfl⟩⟩

/-- Counterexample to C4 as stated: the sole-owner removal does fail, but
with a plain `Error` (name `"Error"`); no error class in the code is called
`InvariantError`, so the failure cannot be an `InvariantError`. -/
theorem C4_counterexample :
    removeOrgMember ⟨[(1, "acme".data)], [(10, "alice".data)], [⟨1, 10, .owner⟩]⟩
        "acme".data "alice".data
      = .error ⟨.generic, "Cannot remove the last owner. Transfer ownership first.".data⟩
    ∧ errNameStr .generic = "Error".data
    ∧ (∀ k : ErrName, errNameStr k ≠ "InvariantError".data) :=
  ⟨rfl, by decide, by decide⟩

/-! ## Claim C5 -/

/-- C5: `create_org_with_owner` is atomic — on success both the organization
row and the creator's `owner` membership persist; on any failure (slug
conflict, or an injected failure between the two inserts) the transaction
rolls back and neither persists; consequently no persisted organization is
ever left without an owner membership. -/
theorem C5_atomic_org_creation (db : RegistryDb) (creator : UserId)
    (newOrgId : OrgId) (slug : Str) (fail : Bool)
    (hfresh : ∀ x ∈ db.orgs, x.1 ≠ newOrgId)
    (hinv : ∀ x ∈ db.orgs, orgHasOwner db x.1) :
    (∀ x ∈ (persistedAfterCreate db creator newOrgId slug fail).orgs,
      orgHasOwner (persistedAfterCreate db creator newOrgId slug fail) x.1)
    ∧ (∀ db', create_org_with_owner db creator newOrgId slug fail = .ok db' →
        (newOrgId, slug) ∈ db'.orgs
        ∧ (⟨newOrgId, creator, Role.owner⟩ : OrgMem) ∈ db'.org_members)
    ∧ (∀ e, create_org_with_owner db creator newOrgId slug fail = .error e →
        persistedAfterCreate db creator newOrgId slug fail = db
        ∧ ∀ x ∈ db.orgs, x.1 ≠ newOrgId) := by
  by_cases hdup : (db.orgs.any fun x => decide (x.2 = slug)) = true
  · have herr : create_org_with_owner db creator newOrgId slug fail
        = .error ⟨.generic, "duplicate key value violates unique constraint".data⟩ := by
      simp [create_org_with_owner, hdup]
    have hpers : persistedAfterCreate db creator newOrgId slug fail = db := by
      simp [persistedAfterCreate, herr]
    refine ⟨?_, ?_, ?_⟩
    · rw [hpers]; exact hinv
    · intro db' h; rw [herr] at h; exact absurd h (by simp)
    · intro e _; exact ⟨hpers, hfresh⟩
  · cases fail with
    | true =>
      have herr : create_org_with_owner db creator newOrgId slug true
          = .error ⟨.generic, "could not insert owner membership".data⟩ := by
        simp [create_org_with_owner, hdup]
      have hpers : persistedAfterCreate db creator newOrgId slug true = db := by
        simp [persistedAfterCreate, herr]
      refine ⟨?_, ?_, ?_⟩
      · rw [hpers]; exact hinv
      · intro db' h; rw [herr] at h; exact absurd h (by simp)
      · intro e _; exact ⟨hpers, hfresh⟩
    | false =>
      have hok : create_org_with_owner db creator newOrgId slug false
          = .ok { db with
              orgs := (newOrgId, slug) :: db.orgs,
              org_members := ⟨newOrgId, creator, Role.owner⟩ :: db.org_members } := by
        simp [create_org_with_owner, hdup]
      have hpers : persistedAfterCreate db creator newOrgId slug false
          = { db with
              orgs := (newOrgId, slug) :: db.orgs,
              org_members := ⟨newOrgId, creator, Role.owner⟩ :: db.org_members } := by
        simp [persistedAfterCreate, hok]
      refine ⟨?_, ?_, ?_⟩
      · rw [hpers]
        intro x hx
        rcases List.mem_cons.mp hx with rfl | hx'
        · exact ⟨⟨newOrgId, creator, Role.owner⟩, List.mem_cons_self _ _, rfl, rfl⟩
        · obtain ⟨m, hm, hmo, hmr⟩ := hinv x hx'
          exact ⟨m, List.mem_cons_of_mem _ hm, hmo, hmr⟩
      · intro db' h
        rw [hok] at h
        rw [← Except.ok.inj h]
        exact ⟨List.mem_cons_self _ _, List.mem_cons_self _ _⟩
      · intro e h
        rw [hok] at h
        exact absurd h (by simp)

/-- Witness for C5: with an injected failure between the two writes, nothing
persists; without it, both rows persist. -/
theorem C5_witness :
    persistedAfterCreate ⟨[], [], []⟩ 10 1 "acme".data true = ⟨[], [], []⟩
    ∧ ∃ db', create_org_with_owner ⟨[], [], []⟩ 10 1 "acme".data false = .ok db'
        ∧ (1, "acme".data) ∈ db'.orgs
        ∧ (⟨1, 10, Role.owner⟩ : OrgMem) ∈ db'.org_members :=
  ⟨((C5_atomic_org_creation ⟨[], [], []⟩ 10 1 "acme".data true (by simp) (by simp)).2.2
      ⟨.generic, "could not insert owner membership".data⟩ rfl).1,
    by
      obtain ⟨h1, h2⟩ := (C5_atomic_org_creation ⟨[], [], []⟩ 10 1 "acme".data false
        (by simp) (by simp)).2.1 _ rfl
      exact ⟨_, rfl, h1, h2⟩⟩

/-! ## Claim C10 -/

theorem cascadeDelete_fails (o : OrgId) : ∀ (order members : List OrgMem),
    members.Nodup → order.Nodup →
    (∀ r ∈ order, r ∈ members ∧ r.org = o) →
    (∀ m ∈ members, m.org = o → m.role = Role.owner → m ∈ order) →
    (∀ r ∈ order, ∀ r' ∈ order, r.user = r'.user → r = r') →
    (∃ r ∈ order, r.role = Role.owner) →
    ∃ e, cascadeDelete o members order = .error e := by
  intro order
  induction order with
  | nil =>
    intro members _ _ _ _ _ hex
    simp at hex
  | cons r rest ih =>
    intro members hmnd hond hsub hcov hinj hex
    have hrm : r ∈ members := (hsub r (List.mem_cons_self _ _)).1
    have hro : r.org = o := (hsub r (List.mem_cons_self _ _)).2
    have hrnotin : r ∉ rest := (List.nodup_cons.mp hond).1
    have hrestnd : rest.Nodup := (List.nodup_cons.mp hond).2
    have hsub' : ∀ x ∈ rest, x ∈ members.erase r ∧ x.org = o := by
      intro x hx
      have hxne : x ≠ r := fun h => hrnotin (h ▸ hx)
      exact ⟨(List.mem_erase_of_ne hxne).mpr (hsub x (List.mem_cons_of_mem _ hx)).1,
        (hsub x (List.mem_cons_of_mem _ hx)).2⟩
    have hcov' : ∀ m ∈ members.erase r, m.org = o → m.role = Role.owner → m ∈ rest := by
      intro m hm horg hrole
      have hmr := (List.Nodup.mem_erase_iff hmnd).mp hm
      rcases List.mem_cons.mp (hcov m hmr.2 horg hrole) with rfl | hmem
      · exact absurd rfl hmr.1
      · exact hmem
    have hinj' : ∀ x ∈ rest, ∀ x' ∈ rest, x.user = x'.user → x = x' := by
      intro x hx x' hx' hu
      exact hinj x (List.mem_cons_of_mem _ hx) x' (List.mem_cons_of_mem _ hx') hu
    by_cases hrole : r.role = Role.owner
    · by_cases hrest : ∃ r' ∈ rest, r'.role = Role.owner
      · obtain ⟨r', hr', hr'o⟩ := hrest
        have hr'm : r' ∈ members := (hsub r' (List.mem_cons_of_mem _ hr')).1
        have hr'org : r'.org = o := (hsub r' (List.mem_cons_of_mem _ hr')).2
        have hner : r ≠ r' := fun h => hrnotin (h ▸ hr')
        have huser : r'.user ≠ r.user := fun h =>
          hner.symm (hinj r' (List.mem_cons_of_mem _ hr') r (List.mem_cons_self _ _) h)
        have hooe : otherOwnerExists members o r.user = true := by
          unfold otherOwnerExists
          rw [List.any_eq_true]
          exact ⟨r', hr'm, by simp [hr'org, hr'o, huser]⟩
        have hcond : (decide (r.role = Role.owner)
            && !otherOwnerExists members o r.user) = false := by
          simp [hooe]
        simp only [cascadeDelete]
        rw [hcond]
        simp only [Bool.false_eq_true, if_false]
        exact ih (members.erase r) (List.Nodup.erase r hmnd) hrestnd hsub' hcov' hinj'
          ⟨r', hr', hr'o⟩
      · push_neg at hrest
        have hooe : otherOwnerExists members o r.user = false := by
          unfold otherOwnerExists
          rw [List.any_eq_false]
          intro m hm
          simp only [Bool.and_eq_true, decide_eq_true_eq, not_and]
          intro hpair hu
          obtain ⟨horg, hrole'⟩ := hpair
          rcases List.mem_cons.mp (hcov m hm horg hrole') with rfl | hmem
          · exact hu rfl
          · exact absurd hrole' (hrest m hmem)
        refine ⟨⟨.generic, "Cannot remove the last owner of an organization".data⟩, ?_⟩
        have hcond : (decide (r.role = Role.owner)
            && !otherOwnerExists members o r.user) = true := by
          simp [hrole, hooe]
        simp only [cascadeDelete]
        rw [hcond]
        simp
    · have hcond : (decide (r.role = Role.owner)
          && !otherOwnerExists members o r.user) = false := by
        simp [hrole]
      simp only [cascadeDelete]
      rw [hcond]
      simp only [Bool.false_eq_true, if_false]
      have hex' : ∃ x ∈ rest, x.role = Role.owner := by
        obtain ⟨x, hx, hxo⟩ := hex
        rcases List.mem_cons.mp hx with rfl | hmem
        · exact absurd hxo hrole
        · exact ⟨x, hmem, hxo⟩
      exact ih (members.erase r) (List.Nodup.erase r hmnd) hrestnd hsub' hcov' hinj' hex'

/-- C10: deleting an organization that still has at least one `owner`
membership always fails, whatever order the cascade deletes the membership
rows in — the row deletions cascade, the BEFORE DELETE last-owner trigger
fires on each cascaded owner row, the final owner row finds no other owner
and raises, and the whole deletion rolls back. -/
theorem C10_delete_org_with_owner_fails (db : RegistryDb) (slug : Str) (o : OrgId)
    (order : List OrgMem)
    (hfind : db.orgs.find? (fun x => decide (x.2 = slug)) = some (o, slug))
    (hperm : order.Perm (db.org_members.filter fun m => decide (m.org = o)))
    (hnodup : db.org_members.Nodup)
    (husers : ∀ m ∈ db.org_members, ∀ m' ∈ db.org_members,
      m.org = o → m'.org = o → m.user = m'.user → m = m')
    (howner : ∃ m ∈ db.org_members, m.org = o ∧ m.role = Role.owner) :
    ∃ e, deleteOrg db slug order = .error e := by
  have hond : order.Nodup := hperm.nodup_iff.mpr (List.Nodup.filter _ hnodup)
  have hmemiff : ∀ x : OrgMem,
      x ∈ order ↔ x ∈ db.org_members.filter (fun m => decide (m.org = o)) :=
    fun x => hperm.mem_iff
  have hsub : ∀ r ∈ order, r ∈ db.org_members ∧ r.org = o := by
    intro r hr
    have h2 := List.mem_filter.mp ((hmemiff r).mp hr)
    exact ⟨h2.1, by simpa using h2.2⟩
  have hcov : ∀ m ∈ db.org_members, m.org = o → m.role = Role.owner → m ∈ order := by
    intro m hm horg _
    exact (hmemiff m).mpr (List.mem_filter.mpr ⟨hm, by simp [horg]⟩)
  have hinj : ∀ r ∈ order, ∀ r' ∈ order, r.user = r'.user → r = r' := by
    intro r hr r' hr' hu
    exact husers r (hsub r hr).1 r' (hsub r' hr').1 (hsub r hr).2 (hsub r' hr').2 hu
  have hex : ∃ r ∈ order, r.role = Role.owner := by
    obtain ⟨m, hm, horg, hrole⟩ := howner
    exact ⟨m, hcov m hm horg hrole, hrole⟩
  obtain ⟨e, he⟩ := cascadeDelete_fails o order db.org_members hnodup hond hsub hcov
    hinj hex
  exact ⟨⟨.generic, "Failed to delete organization: ".data ++ e.msg⟩,
    by simp only [deleteOrg, hfind, he]⟩

/-- Witness for C10: a two-member org (one owner, one member) cannot be
deleted, with the cascade processing the rows in stored order. -/
theorem C10_witness :
    ∃ e, deleteOrg ⟨[(1, "acme".data)], [], [⟨1, 10, .owner⟩, ⟨1, 20, .member⟩]⟩
        "acme".data [⟨1, 10, .owner⟩, ⟨1, 20, .member⟩] = .error e :=
  C10_delete_org_with_owner_fails
    ⟨[(1, "acme".data)], [], [⟨1, 10, .owner⟩, ⟨1, 20, .member⟩]⟩ "acme".data 1
    [⟨1, 10, .owner⟩, ⟨1, 20, .member⟩] (by decide) (List.Perm.refl _) (by decide)
    (by decide) (by decide)

/-! ## Claim C6 -/

theorem check_step (action ident : Str) (aL n k c t : Nat) (cl : Bool)
    (ht : t / 3600 = n) (hc : k ≠ 0 → n * 3600 ≤ c) :
    check_rate_limit (rlStateAt action ident aL n k c) t cl ident action false
      = (if 60 < k + 1 then
           ⟨false, some 60, some 0, some (n * 3600 + 3600), some (n * 3600 + 3600 - t)⟩
         else ⟨true, some 60, some (60 - (k + 1)), some (n * 3600 + 3600), none⟩,
         rlStateAt action ident aL n (k + 1) (if k = 0 then t else c)) := by
  have htlt : t < (n + 1) * 3600 := by
    rw [Nat.lt_iff_add_one_le]
    have := Nat.lt_succ_of_le (Nat.le_refl (t / 3600))
    have h2 : t / 3600 < n + 1 := by omega
    have := (Nat.div_lt_iff_lt_mul (by norm_num : (0:Nat) < 3600)).mp h2
    omega
  have hws : t / 3600 * 3600 = n * 3600 := by rw [ht]
  cases k with
  | zero =>
    simp only [rlStateAt, if_pos rfl]
    simp [check_rate_limit, List.find?_cons, hws]
  | succ k' =>
    have hcb : n * 3600 ≤ c := hc (Nat.succ_ne_zero k')
    have hkeep : decide (c + 7200 < t) = false := by
      rw [decide_eq_false_iff_not]
      omega
    simp only [rlStateAt, if_neg (Nat.succ_ne_zero k')]
    simp only [check_rate_limit, List.filter_cons, List.filter_nil, hkeep,
      Bool.not_false, ite_self, if_pos]
    simp [List.find?_cons, hws, Nat.succ_ne_zero]
    by_cases h60 : 60 < k' + 1 + 1
    · simp [h60]
    · simp [h60]

theorem runChecksState_spec (action ident : Str) (aL n : Nat) :
    ∀ (ts : List (Nat × Bool)) (k c : Nat), (∀ p ∈ ts, p.1 / 3600 = n) →
    (k ≠ 0 → n * 3600 ≤ c) →
    ∃ c', ((k + ts.length ≠ 0) → n * 3600 ≤ c')
      ∧ runChecksState ident action (rlStateAt action ident aL n k c) ts
        = rlStateAt action ident aL n (k + ts.length) c' := by
  intro ts
  induction ts with
  | nil =>
    intro k c _ hc
    exact ⟨c, by simpa using hc, rfl⟩
  | cons p rest ih =>
    intro k c hwin hc
    obtain ⟨t, cl⟩ := p
    have ht : t / 3600 = n := hwin (t, cl) (List.mem_cons_self _ _)
    have hstep := check_step action ident aL n k c t cl ht hc
    have hc₁ : (k + 1 ≠ 0) → n * 3600 ≤ (if k = 0 then t else c) := by
      intro _
      by_cases hk : k = 0
      · rw [if_pos hk, ← ht]
        exact Nat.div_mul_le_self t 3600
      · rw [if_neg hk]
        exact hc hk
    obtain ⟨c', hb, hrun⟩ := ih (k + 1) (if k = 0 then t else c)
      (fun q hq => hwin q (List.mem_cons_of_mem _ hq)) hc₁
    refine ⟨c', ?_, ?_⟩
    · intro h
      apply hb
      simp only [List.length_cons] at h ⊢
      omega
    · have hlen : k + 1 + rest.length = k + (rest.length + 1) := by omega
      unfold runChecksState at hrun ⊢
      rw [List.foldl_cons]
      have h2 : (check_rate_limit (rlStateAt action ident aL n k c) (t, cl).1 (t, cl).2
            ident action false).2
          = rlStateAt action ident aL n (k + 1) (if k = 0 then t else c) := by
        show (check_rate_limit (rlStateAt action ident aL n k c) t cl
          ident action false).2 = _
        rw [hstep]
      rw [h2, hrun]
      simp only [List.length_cons]
      rw [hlen]

theorem check_fresh_window (action ident : Str) (aL n k c t : Nat) (cl : Bool)
    (ht : t / 3600 = n + 1) :
    (check_rate_limit (rlStateAt action ident aL n k c) t cl
      ident action false).1.allowed = true := by
  have hws : t / 3600 * 3600 = (n + 1) * 3600 := by rw [ht]
  have hne : (n * 3600 = (n + 1) * 3600) = False := by
    simp only [eq_iff_iff, iff_false]
    intro h
    omega
  cases k with
  | zero =>
    simp only [rlStateAt, if_pos rfl]
    simp [check_rate_limit, List.find?_cons, hws]
  | succ k' =>
    simp only [rlStateAt, if_neg (Nat.succ_ne_zero k')]
    cases cl with
    | false => simp [check_rate_limit, List.find?_cons, hws, hne]
    | true =>
      by_cases hdrop : decide (c + 7200 < t) = true
      · simp [check_rate_limit, List.filter_cons, hdrop, hws]
      · have hdrop' : decide (c + 7200 < t) = false := by
          cases hx : decide (c + 7200 < t) with
          | false => rfl
          | true => exact absurd hx hdrop
        simp [check_rate_limit, List.filter_cons, hdrop', List.find?_cons, hws, hne]

/-- C6: under config `{window: 3600 s, anonymousLimit: 60}`, for any
identifier starting from a clean window: after any 59 anonymous checks
inside the window, the 60th check is allowed, the 61st is denied with
`retry_after = reset_at - now` lying between 1 and 3600 seconds, and the
first check in the next window is allowed again — whatever the cleanup
rolls were. -/
theorem C6_rate_limit_window_behavior (action ident : Str) (aL n : Nat)
    (ts : List (Nat × Bool)) (h59 : ts.length = 59)
    (hwin : ∀ p ∈ ts, p.1 / 3600 = n)
    (t60 t61 t' : Nat) (c60 c61 c' : Bool)
    (h60 : t60 / 3600 = n) (h61 : t61 / 3600 = n) (ht' : t' / 3600 = n + 1) :
    (check_rate_limit
        (runChecksState ident action ⟨[(action, ⟨3600, 60, aL⟩)], []⟩ ts)
        t60 c60 ident action false).1.allowed = true
    ∧ (check_rate_limit
        (check_rate_limit
          (runChecksState ident action ⟨[(action, ⟨3600, 60, aL⟩)], []⟩ ts)
          t60 c60 ident action false).2
        t61 c61 ident action false).1.allowed = false
    ∧ (check_rate_limit
        (check_rate_limit
          (runChecksState ident action ⟨[(action, ⟨3600, 60, aL⟩)], []⟩ ts)
          t60 c60 ident action false).2
        t61 c61 ident action false).1.retry_after = some (n * 3600 + 3600 - t61)
    ∧ 1 ≤ n * 3600 + 3600 - t61 ∧ n * 3600 + 3600 - t61 ≤ 3600
    ∧ (check_rate_limit
        (check_rate_limit
          (check_rate_limit
            (runChecksState ident action ⟨[(action, ⟨3600, 60, aL⟩)], []⟩ ts)
            t60 c60 ident action false).2
          t61 c61 ident action false).2
        t' c' ident action false).1.allowed = true := by
  have hinit : (⟨[(action, ⟨3600, 60, aL⟩)], []⟩ : RLState)
      = rlStateAt action ident aL n 0 0 := by
    simp [rlStateAt]
  obtain ⟨cA, hcA, hrun⟩ := runChecksState_spec action ident aL n ts 0 0 hwin
    (by intro h; exact absurd rfl h)
  rw [h59] at hrun hcA
  simp only [Nat.zero_add] at hrun hcA
  have hcA' : 59 ≠ 0 → n * 3600 ≤ cA := fun _ => hcA (by omega)
  have hstep60 := check_step action ident aL n 59 cA t60 c60 h60 hcA'
  have h59n : (59 : Nat) + 1 = 60 := rfl
  have hnot60 : ¬ (60 < 59 + 1) := by omega
  have hcB : (60 : Nat) ≠ 0 → n * 3600 ≤ (if (59 : Nat) = 0 then t60 else cA) := by
    intro _
    rw [if_neg (by omega)]
    exact hcA (by omega)
  have hstep61 := check_step action ident aL n 60 (if (59 : Nat) = 0 then t60 else cA)
    t61 c61 h61 hcB
  have hyes61 : (60 < 60 + 1) := by omega
  have hge61 : n * 3600 ≤ t61 := by
    rw [← h61]
    exact Nat.div_mul_le_self t61 3600
  have hlt61 : t61 < (n + 1) * 3600 := by
    have h2 : t61 / 3600 < n + 1 := by omega
    exact (Nat.div_lt_iff_lt_mul (by norm_num : (0:Nat) < 3600)).mp h2
  have hfresh := check_fresh_window action ident aL n (60 + 1)
    (if (60 : Nat) = 0 then t61 else if (59 : Nat) = 0 then t60 else cA) t' c' ht'
  rw [hinit, hrun]
  rw [hstep60]
  simp only [if_neg hnot60]
  rw [hstep61]
  simp only [if_pos hyes61]
  refine ⟨by trivial, by trivial, by trivial, ?_, ?_, ?_⟩
  · omega
  · omega
  · exact hfresh

/-- Witness for C6: 59 checks at time 0 in window 0, the 60th at time 0
(allowed), the 61st at time 10 (denied, retry 3590 s), and a check at 3600
(next window) allowed again. -/
theorem C6_witness :
    (check_rate_limit
        (runChecksState "i".data "api".data ⟨[("api".data, ⟨3600, 60, 1000⟩)], []⟩
          (List.replicate 59 (0, false)))
        0 false "i".data "api".data false).1.allowed = true
    ∧ (check_rate_limit
        (check_rate_limit
          (runChecksState "i".data "api".data ⟨[("api".data, ⟨3600, 60, 1000⟩)], []⟩
            (List.replicate 59 (0, false)))
          0 false "i".data "api".data false).2
        10 false "i".data "api".data false).1.allowed = false
    ∧ (check_rate_limit
        (check_rate_limit
          (runChecksState "i".data "api".data ⟨[("api".data, ⟨3600, 60, 1000⟩)], []⟩
            (List.replicate 59 (0, false)))
          0 false "i".data "api".data false).2
        10 false "i".data "api".data false).1.retry_after = some (0 * 3600 + 3600 - 10)
    ∧ (check_rate_limit
        (check_rate_limit
          (check_rate_limit
            (runChecksState "i".data "api".data ⟨[("api".data, ⟨3600, 60, 1000⟩)], []⟩
              (List.replicate 59 (0, false)))
            0 false "i".data "api".data false).2
          10 false "i".data "api".data false).2
        3600 false "i".data "api".data false).1.allowed = true := by
  obtain ⟨ha, hb, hc, -, -, hd⟩ := C6_rate_limit_window_behavior "api".data "i".data
    1000 0 (List.replicate 59 (0, false)) (by decide)
    (by
      intro p hp
      have h := List.eq_of_mem_replicate hp
      rw [h]
      rfl)
    0 10 3600 false false false (by decide) (by decide) (by decide)
  exact ⟨ha, hb, hc, hd⟩

end Tskills
